import Mathlib

/-!
Verification of the Lasso lookup-argument core (a16z/Lasso) against its
natural-language specification.

The Rust sources are shallowly embedded: `DensePolynomial<F>` (an evaluation
vector over the boolean hypercube) becomes `List F`; field elements are a
`CommRing`; `usize`/`u64` values become `Nat`; loops become structural
recursions threading the same state; Rust `Vec` indexing becomes `List.getD`
with default values that are never hit on the in-range indices the theorems
speak about.  Panicking validation (`assert!`) is modelled either as an
`Option` guard or as an explicit boolean predicate, as noted at each
definition.
-/

set_option autoImplicit false

namespace Lasso

/-! ### Generic helpers -/

/-- `usize::next_power_of_two` from Rust: the least power of two that is
greater than or equal to `n` (`1` for `n = 0`).  Implemented with explicit
fuel so that the kernel can evaluate it. -/
def nextPow2Aux (n : Nat) : Nat → Nat → Nat
  | 0, acc => acc
  | fuel + 1, acc => if n ≤ acc then acc else nextPow2Aux n fuel (2 * acc)

/-- The least power of two `≥ n` (Rust `next_power_of_two`). -/
def nextPow2 (n : Nat) : Nat := nextPow2Aux n n 1

/-! ### Grand product circuit (`src/product_tree.rs`) -/

namespace GrandProduct

variable {F : Type} [CommRing F]

/-- `GrandProductCircuit::compute_layer`: the next layer's left/right halves,
obtained by multiplying the previous layer's left and right vectors pointwise
and splitting the result in half again. -/
def computeLayer (inpLeft inpRight : List F) : List F × List F :=
  let len := inpLeft.length + inpRight.length
  ((List.range (len / 4)).map fun i => inpLeft.getD i 0 * inpRight.getD i 0,
   (List.range' (len / 4) (len / 2 - len / 4)).map fun i =>
     inpLeft.getD i 0 * inpRight.getD i 0)

/-- The layered product tree: `left_vec` / `right_vec` of
`GrandProductCircuit`. -/
structure Circuit (F : Type) where
  leftVec : List (List F)
  rightVec : List (List F)

/-- The loop of `GrandProductCircuit::new`: starting from the two input
halves, stack `cnt` further layers, each derived from the previous one by
`compute_layer`. -/
def buildLayers (l r : List F) : Nat → List (List F) × List (List F)
  | 0 => ([l], [r])
  | cnt + 1 =>
    let next := computeLayer l r
    let rest := buildLayers next.1 next.2 cnt
    (l :: rest.1, r :: rest.2)

/-- `GrandProductCircuit::new`: split the input polynomial into two halves
and iterate `compute_layer` `log₂(len) - 1` times. -/
def newCircuit (poly : List F) : Circuit F :=
  let numLayers := Nat.log2 poly.length
  let layers := buildLayers (poly.take (poly.length / 2))
    (poly.drop (poly.length / 2)) (numLayers - 1)
  { leftVec := layers.1, rightVec := layers.2 }

/-- `GrandProductCircuit::evaluate`: the product of the two scalars in the
last layer. -/
def evalCircuit (c : Circuit F) : F :=
  let len := c.leftVec.length
  (c.leftVec.getD (len - 1) []).getD 0 0 * (c.rightVec.getD (len - 1) []).getD 0 0

end GrandProduct

/-! ### Instruction lookups (`jolt-core/src/jolt/vm/instruction_lookups.rs`)

The Rust code is generic over `InstructionSet` (a closed catalogue of
instructions, enumerable via `IntoEnumIterator`, with `to_opcode` giving each
variant its index into that enumeration) and over `Subtables` (a closed
catalogue of subtables with an index mapping `Into<usize>`).  We embed the
catalogues as data: instruction `i ∈ [0, numInstructions)` has subtable index
list `subtablesOf i` (the indices of `op.subtables(C)`) and collation
polynomial `combine i` (its `combine_lookups(vals, C, M)`); a trace operation
(`LookupOp`) carries the opcode of its instruction and the `C` chunk indices
returned by `to_indices(C, log_2 M)`. -/

namespace Lookups

/-- The closed instruction/subtable catalogue and the constants `C`, `M`
over which `InstructionLookups<F, G, InstructionSet, Subtables, C, M>` is
instantiated. -/
structure LookupCtx (F : Type) where
  C : Nat
  M : Nat
  numInstructions : Nat
  numSubtables : Nat
  subtablesOf : Nat → List Nat
  combine : Nat → List F → F
  materializedSubtables : List (List F)

/-- One element of the trace `ops`: the opcode of the executed instruction
and its `to_indices(C, log_2 M)` chunk decomposition. -/
structure LookupOp where
  opcode : Nat
  indices : List Nat

instance : Inhabited LookupOp := ⟨⟨0, []⟩⟩

variable {F : Type} [CommRing F]

/-- `NUM_MEMORIES = C * Subtables::COUNT`. -/
def numMemories (ctx : LookupCtx F) : Nat := ctx.C * ctx.numSubtables

/-- `memory_to_subtable_index`: maps `[0, NUM_MEMORIES) → [0, NUM_SUBTABLES)`. -/
def memoryToSubtableIndex (ctx : LookupCtx F) (i : Nat) : Nat := i / ctx.C

/-- `memory_to_dimension_index`: maps `[0, NUM_MEMORIES) → [0, C)`. -/
def memoryToDimensionIndex (ctx : LookupCtx F) (i : Nat) : Nat := i % ctx.C

/-- `instruction_to_memory_indices`: each subtable used by the instruction
contributes the contiguous block `[C*index, C*(index+1))` of memory indices. -/
def instructionToMemoryIndices (ctx : LookupCtx F) (opcode : Nat) : List Nat :=
  (ctx.subtablesOf opcode).flatMap fun subtableIndex =>
    List.range' (ctx.C * subtableIndex) ctx.C

/-- `subtable_lookup_indices`: `C` access sequences, the `i`-th holding each
operation's `i`-th chunk index, resized with `0` to the padded length `m`. -/
def subtableLookupIndices (ctx : LookupCtx F) (ops : List LookupOp) : List (List Nat) :=
  let m := nextPow2 ops.length
  (List.range ctx.C).map fun i =>
    (ops.map fun op => op.indices.getD i 0) ++ List.replicate (m - ops.length) 0

/-- The per-memory loop body of `polynomialize` (`for (j, op) in ops`): when
the instruction at step `j` uses this memory, record the current per-address
counter as `read_cts[j]`, bump `final_cts[address]`, and store the subtable
value as the dereferenced lookup `E[j]`; otherwise the preallocated zeros are
left in place. -/
def memLoop (ctx : LookupCtx F) (memoryIndex : Nat) (subtableVals : List F)
    (accessSequence : List Nat) :
    Nat → List LookupOp → List Nat → List Nat × List Nat × List F
  | _, [], finalCts => ([], finalCts, [])
  | j, op :: rest, finalCts =>
    if memoryIndex ∈ instructionToMemoryIndices ctx op.opcode then
      let memoryAddress := accessSequence.getD j 0
      let counter := finalCts.getD memoryAddress 0
      let out := memLoop ctx memoryIndex subtableVals accessSequence (j + 1) rest
        (finalCts.set memoryAddress (counter + 1))
      (counter :: out.1, out.2.1, subtableVals.getD memoryAddress 0 :: out.2.2)
    else
      let out := memLoop ctx memoryIndex subtableVals accessSequence (j + 1) rest finalCts
      (0 :: out.1, out.2.1, (0 : F) :: out.2.2)

/-- The body of `polynomialize`'s per-memory map: produces
`(read_cts_i, final_cts_i, subtable_lookups_i)` for one memory index
(`read_cts`/`E` have padded length `m`; `final_cts` has length `M`). -/
def polynomializeMem (ctx : LookupCtx F) (ops : List LookupOp) (memoryIndex : Nat) :
    List Nat × List Nat × List F :=
  let m := nextPow2 ops.length
  let subtableIndex := memoryToSubtableIndex ctx memoryIndex
  let dimIndex := memoryToDimensionIndex ctx memoryIndex
  let subtableVals := ctx.materializedSubtables.getD subtableIndex []
  let accessSequence := (subtableLookupIndices ctx ops).getD dimIndex []
  let out := memLoop ctx memoryIndex subtableVals accessSequence 0 ops
    (List.replicate ctx.M 0)
  (out.1 ++ List.replicate (m - ops.length) 0, out.2.1,
    out.2.2 ++ List.replicate (m - ops.length) (0 : F))

/-- The flag-bitvector loop of `polynomialize`:
`instruction_flag_bitvectors[op.to_opcode()][j] = 1` for each step `j`. -/
def setFlags : List (List Nat) → Nat → List LookupOp → List (List Nat)
  | bv, _, [] => bv
  | bv, j, op :: rest =>
    setFlags (bv.set op.opcode ((bv.getD op.opcode []).set j 1)) (j + 1) rest

/-- `instruction_flag_bitvectors`: `NUM_INSTRUCTIONS` rows of length `m`,
initially zero, with a `1` at `(opcode of ops[j], j)` for every step `j`. -/
def flagBitvectors (numInstructions m : Nat) (ops : List LookupOp) : List (List Nat) :=
  setFlags (List.replicate numInstructions (List.replicate m 0)) 0 ops

/-- All polynomials produced by `polynomialize`
(`InstructionPolynomials`). -/
structure InstructionPolynomials (F : Type) where
  dim : List (List F)
  readCts : List (List F)
  finalCts : List (List F)
  EPolys : List (List F)
  instructionFlagPolys : List (List F)

/-- `InstructionLookups::polynomialize`. -/
def polynomialize (ctx : LookupCtx F) (ops : List LookupOp) : InstructionPolynomials F :=
  let m := nextPow2 ops.length
  { dim := (subtableLookupIndices ctx ops).map fun accessSequence =>
      accessSequence.map (Nat.cast : Nat → F)
    readCts := (List.range (numMemories ctx)).map fun memoryIndex =>
      (polynomializeMem ctx ops memoryIndex).1.map (Nat.cast : Nat → F)
    finalCts := (List.range (numMemories ctx)).map fun memoryIndex =>
      (polynomializeMem ctx ops memoryIndex).2.1.map (Nat.cast : Nat → F)
    EPolys := (List.range (numMemories ctx)).map fun memoryIndex =>
      (polynomializeMem ctx ops memoryIndex).2.2
    instructionFlagPolys := (flagBitvectors ctx.numInstructions m ops).map fun bits =>
      bits.map (Nat.cast : Nat → F) }

/-- The accumulation loop of `compute_sumcheck_claim` (`k` is the running
step index of the `enumerate`). -/
def claimSum (ctx : LookupCtx F) (EPolys : List (List F)) (eqEvals : List F) :
    Nat → List LookupOp → F
  | _, [] => 0
  | k, op :: rest =>
    eqEvals.getD k 0 * ctx.combine op.opcode
      ((instructionToMemoryIndices ctx op.opcode).map fun memoryIndex =>
        (EPolys.getD memoryIndex []).getD k 0)
    + claimSum ctx EPolys eqEvals (k + 1) rest

/-- `InstructionLookups::compute_sumcheck_claim`: for each trace step `k`,
weight the instruction's collation of its dereferenced operands by
`eq_evals[k]`, and sum. -/
def computeSumcheckClaim (ctx : LookupCtx F) (ops : List LookupOp)
    (EPolys : List (List F)) (eqEvals : List F) : F :=
  claimSum ctx EPolys eqEvals 0 ops

/-- `InstructionLookups::combine_lookups` (the static collation used by the
verifier): `Σ_i flag_i · g_i(E(x))` over the instruction catalogue. -/
def combineLookups (ctx : LookupCtx F) (vals flags : List F) : F :=
  ((List.range ctx.numInstructions).map fun i =>
    flags.getD i 0 * ctx.combine i
      ((instructionToMemoryIndices ctx i).map fun memoryIndex =>
        vals.getD memoryIndex 0)).sum

/-- Modelled from the spec: `EqPolynomial::evals` (`poly/eq_poly.rs` is not
among the provided sources).  Spec §3: the dense evaluation vector of the
equality polynomial at `r` has `chi_i(r) = ∏_j (r_j if bit_j(i) = 1 else
1 - r_j)`, with `r_0` the most significant bit of the index. -/
def eqEvalsList : List F → List F
  | [] => [1]
  | r :: rs =>
    let tail := eqEvalsList rs
    (tail.map fun x => (1 - r) * x) ++ tail.map fun x => r * x

/-- `MemoryCheckingProver::fingerprint` for instruction lookups: the tuple is
`(a, v, t, flag)`; an absent flag gives the plain Reed-Solomon style
fingerprint, a present flag `f` toggles between it and the multiplicative
identity `1`. -/
def fingerprint (inputs : F × F × F × Option F) (gamma tau : F) : F :=
  match inputs with
  | (a, v, t, some val) => val * (t * gamma ^ 2 + v * gamma + a - tau) + 1 - val
  | (a, v, t, none) => t * gamma ^ 2 + v * gamma + a - tau

/-- `InstructionLookups::compute_leaves`.  `mul_0_1_optimized` is an
optimized but semantically plain field multiplication, embedded as `*`.
The first component lists read/write leaves interleaved
(`[read_0, write_0, read_1, write_1, ...]`), the second lists
`init :: finals` blocks per subtable. -/
def computeLeaves (ctx : LookupCtx F) (numLookups : Nat)
    (polys : InstructionPolynomials F) (gamma tau : F) :
    List (List F) × List (List F) :=
  let gammaSquared := gamma ^ 2
  ((List.range (numMemories ctx)).flatMap fun memoryIndex =>
    let dimIndex := memoryToDimensionIndex ctx memoryIndex
    let readFingerprints := (List.range numLookups).map fun i =>
      let a := (polys.dim.getD dimIndex []).getD i 0
      let v := (polys.EPolys.getD memoryIndex []).getD i 0
      let t := (polys.readCts.getD memoryIndex []).getD i 0
      t * gammaSquared + v * gamma + a - tau
    let writeFingerprints := readFingerprints.map fun readFingerprint =>
      readFingerprint + gammaSquared
    [readFingerprints, writeFingerprints],
   ctx.materializedSubtables.enum.flatMap fun subtableEntry =>
    let subtableIndex := subtableEntry.1
    let subtable := subtableEntry.2
    let initFingerprints := (List.range ctx.M).map fun i =>
      subtable.getD i 0 * gamma + (i : F) - tau
    let finalLeaves := (List.range ctx.C).map fun dimIndex =>
      let memoryIndex := ctx.C * subtableIndex + dimIndex
      (List.range ctx.M).map fun i =>
        initFingerprints.getD i 0 +
          (polys.finalCts.getD memoryIndex []).getD i 0 * gammaSquared
    initFingerprints :: finalLeaves)

/-- `MultisetHashes`: the four per-memory grand-product terminal values. -/
structure MultisetHashes (F : Type) where
  readHashes : List F
  writeHashes : List F
  initHashes : List F
  finalHashes : List F

/-- `InstructionLookups::check_multiset_equality`: `true` exactly when every
`assert` in the source passes (the length asserts, and
`init_hash[i / C] * write_hash[i] == final_hash[i] * read_hash[i]` for every
memory index `i`).  A `false` value corresponds to an assertion panic. -/
def checkMultisetEquality [DecidableEq F] (ctx : LookupCtx F)
    (multisetHashes : MultisetHashes F) : Bool :=
  decide (multisetHashes.initHashes.length = ctx.numSubtables) &&
  decide (multisetHashes.readHashes.length = numMemories ctx) &&
  decide (multisetHashes.writeHashes.length = numMemories ctx) &&
  decide (multisetHashes.finalHashes.length = numMemories ctx) &&
  (List.range (numMemories ctx)).all fun i =>
    decide (multisetHashes.initHashes.getD (memoryToSubtableIndex ctx i) 0 *
        multisetHashes.writeHashes.getD i 0 =
      multisetHashes.finalHashes.getD i 0 * multisetHashes.readHashes.getD i 0)

/-- The three ways a run of `InstructionLookups::verify` can end: return
`Ok(())`, return a typed `ProofVerifyError` (propagated with `?`), or panic
on a failed `assert`. -/
inductive Outcome where
  | ok : Outcome
  | err : Outcome
  | panicked : Outcome
deriving DecidableEq

/-- The control-flow skeleton of `InstructionLookups::verify`.  The external
sub-verifications are abstracted as inputs: `sumcheckResult` is the
`Result` of `SumcheckInstanceProof::verify` (`some (claim_last, r)` on
success), `primaryOpeningsOk` the result of the primary-sumcheck opening
verification, and `memorySumcheckOk` / `memoryOpeningsOk` the results of the
batched grand-product sumcheck and the memory-checking opening
verifications.  The primary-sumcheck final check
(`assert_eq!(eq_eval * combine_lookups(..), claim_last)`) and
`check_multiset_equality` are `assert`s in the source and therefore panic on
failure.  Modelled from the spec: the body of `verify_memory_checking`
(`lasso/memory_checking.rs` is not among the provided sources) is laid out
per spec §4.4 step 5 — verify the batched sumcheck, then assert multiset
equality of the terminal products, then verify openings. -/
def verify [DecidableEq F] (ctx : LookupCtx F)
    (sumcheckResult : Option (F × List F))
    (eqEval : F) (EOpenings flagOpenings : List F)
    (primaryOpeningsOk memorySumcheckOk memoryOpeningsOk : Bool)
    (multisetHashes : MultisetHashes F) : Outcome :=
  match sumcheckResult with
  | none => .err
  | some res =>
    if eqEval * combineLookups ctx EOpenings flagOpenings ≠ res.1 then .panicked
    else if primaryOpeningsOk = false then .err
    else if memorySumcheckOk = false then .err
    else if checkMultisetEquality ctx multisetHashes = false then .panicked
    else if memoryOpeningsOk = false then .err
    else .ok

end Lookups

/-! ### Bytecode memory checking (`jolt-core/src/jolt/vm/bytecode.rs`) -/

namespace Bytecode

/-- `RAM_START_ADDRESS` (`common/src/constants.rs`). -/
def ramStartAddress : Nat := 0x80000000

/-- `BYTES_PER_INSTRUCTION` (`common/src/constants.rs`). -/
def bytesPerInstruction : Nat := 4

/-- `ELFRow`: one decoded bytecode row. -/
structure ELFRow where
  address : Nat
  opcode : Nat
  rd : Nat
  rs1 : Nat
  rs2 : Nat
  imm : Nat
deriving DecidableEq

/-- `ELFRow::no_op`. -/
def noOp (address : Nat) : ELFRow := ⟨address, 0, 0, 0, 0, 0⟩

/-- `validate_bytecode` builds a `HashMap` keyed by address (later rows with
the same address overwrite earlier ones), so a lookup returns the last row
with the given address. -/
def bytecodeMapLookup (bytecode : List ELFRow) (addr : Nat) : Option ELFRow :=
  bytecode.reverse.find? fun row => decide (row.address = addr)

/-- `BytecodePolynomials::validate_bytecode`: `true` exactly when every
trace row is found, address and content identical, in the bytecode map (the
source `assert_eq!` panics otherwise). -/
def validateBytecode (bytecode trace : List ELFRow) : Bool :=
  trace.all fun traceRow =>
    decide (bytecodeMapLookup bytecode traceRow.address = some traceRow)

/-- The alignment `assert!`s of `BytecodePolynomials::preprocess`: every
address is at or above `RAM_START_ADDRESS` and `BYTES_PER_INSTRUCTION`
aligned. -/
def alignedRows (rows : List ELFRow) : Bool :=
  rows.all fun row =>
    decide (ramStartAddress ≤ row.address) &&
    decide (row.address % bytesPerInstruction = 0)

/-- The address renormalization of `preprocess`:
`address := (address - RAM_START_ADDRESS) / BYTES_PER_INSTRUCTION`. -/
def preprocessRow (row : ELFRow) : ELFRow :=
  { row with address := (row.address - ramStartAddress) / bytesPerInstruction }

/-- `BytecodePolynomials::preprocess`: renormalize all addresses, append one
`no_op` row right after the bytecode, pad the bytecode to a power of two
with `no_op(0)` rows, and pad the trace to a power of two with rows pointing
at the appended `no_op`. -/
def preprocess (bytecode trace : List ELFRow) : List ELFRow × List ELFRow :=
  let bytecode1 := bytecode.map preprocessRow
  let trace1 := trace.map preprocessRow
  let noOpAddress := (bytecode1.getLast?.getD (noOp 0)).address + 1
  let bytecode2 := bytecode1 ++ [noOp noOpAddress]
  let bytecode3 := bytecode2 ++
    List.replicate (nextPow2 bytecode2.length - bytecode2.length) (noOp 0)
  let trace2 := trace1 ++
    List.replicate (nextPow2 trace1.length - trace1.length) (noOp noOpAddress)
  (bytecode3, trace2)

/-- `FiveTuplePoly`: the five value polynomials of a bytecode row. -/
structure FiveTuplePoly (F : Type) where
  opcode : List F
  rd : List F
  rs1 : List F
  rs2 : List F
  imm : List F

/-- `FiveTuplePoly::from_elf`: push each row's fields, then zero-pad to the
next power of two. -/
def fromElf (F : Type) [CommRing F] (elf : List ELFRow) : FiveTuplePoly F :=
  let len := nextPow2 elf.length
  let pad := List.replicate (len - elf.length) (0 : F)
  { opcode := (elf.map fun row => (row.opcode : F)) ++ pad
    rd := (elf.map fun row => (row.rd : F)) ++ pad
    rs1 := (elf.map fun row => (row.rs1 : F)) ++ pad
    rs2 := (elf.map fun row => (row.rs2 : F)) ++ pad
    imm := (elf.map fun row => (row.imm : F)) ++ pad }

/-- `BytecodePolynomials`. -/
structure BytecodePolynomials (F : Type) where
  aReadWrite : List F
  vReadWrite : FiveTuplePoly F
  vInitFinal : FiveTuplePoly F
  tRead : List F
  tFinal : List F

/-- The counter loop of `BytecodePolynomials::new`: for each trace address in
order, read the current per-address counter into `read_cts` and increment
`final_cts[address]`. -/
def bytecodeCounts : List Nat → List Nat → List Nat × List Nat
  | [], finalCts => ([], finalCts)
  | a :: rest, finalCts =>
    let counter := finalCts.getD a 0
    let out := bytecodeCounts rest (finalCts.set a (counter + 1))
    (counter :: out.1, out.2)

/-- `BytecodePolynomials::new`.  The panicking validation
(`validate_bytecode`, the alignment asserts of `preprocess`, and the
`last().unwrap()` that needs a nonempty bytecode) is modelled by returning
`none`. -/
def newPolynomials (F : Type) [CommRing F] (bytecode trace : List ELFRow) :
    Option (BytecodePolynomials F) :=
  if validateBytecode bytecode trace && alignedRows bytecode && alignedRows trace &&
      !bytecode.isEmpty then
    let p := preprocess bytecode trace
    let maxBytecodeAddress := (p.1.map ELFRow.address).foldl max 0
    let codeSize := nextPow2 (maxBytecodeAddress + 1)
    let counts := bytecodeCounts (p.2.map ELFRow.address) (List.replicate codeSize 0)
    some { aReadWrite := p.2.map fun row => (row.address : F)
           vReadWrite := fromElf F p.2
           vInitFinal := fromElf F p.1
           tRead := counts.1.map (Nat.cast : Nat → F)
           tFinal := counts.2.map (Nat.cast : Nat → F) }
  else none

/-- The accumulation loop of `BytecodeProof::fingerprint`
(`result += input * gamma_term; gamma_term *= gamma`). -/
def fingerprintLoop {F : Type} [CommRing F] (gamma : F) : List F → F → F → F
  | [], result, _ => result
  | input :: rest, result, gammaTerm =>
    fingerprintLoop gamma rest (result + input * gammaTerm) (gammaTerm * gamma)

/-- `BytecodeProof::fingerprint`: `Σ_i inputs[i] * γ^i - τ`. -/
def fingerprint {F : Type} [CommRing F] (inputs : List F) (gamma tau : F) : F :=
  fingerprintLoop gamma inputs 0 1 - tau

/-- `BytecodeProof::compute_leaves`: the four fingerprint leaf vectors, with
memory tuples `[a, opcode, rd, rs1, rs2, imm, t]`. -/
def computeLeaves {F : Type} [CommRing F] (polys : BytecodePolynomials F)
    (gamma tau : F) : List (List F) × List (List F) :=
  let numOps := polys.aReadWrite.length
  let memorySize := polys.vInitFinal.opcode.length
  let readFingerprints := (List.range numOps).map fun i =>
    fingerprint [polys.aReadWrite.getD i 0, polys.vReadWrite.opcode.getD i 0,
      polys.vReadWrite.rd.getD i 0, polys.vReadWrite.rs1.getD i 0,
      polys.vReadWrite.rs2.getD i 0, polys.vReadWrite.imm.getD i 0,
      polys.tRead.getD i 0] gamma tau
  let initFingerprints := (List.range memorySize).map fun (i : Nat) =>
    fingerprint [(i : F), polys.vInitFinal.opcode.getD i 0,
      polys.vInitFinal.rd.getD i 0, polys.vInitFinal.rs1.getD i 0,
      polys.vInitFinal.rs2.getD i 0, polys.vInitFinal.imm.getD i 0,
      0] gamma tau
  let writeFingerprints := (List.range numOps).map fun i =>
    fingerprint [polys.aReadWrite.getD i 0, polys.vReadWrite.opcode.getD i 0,
      polys.vReadWrite.rd.getD i 0, polys.vReadWrite.rs1.getD i 0,
      polys.vReadWrite.rs2.getD i 0, polys.vReadWrite.imm.getD i 0,
      polys.tRead.getD i 0 + 1] gamma tau
  let finalFingerprints := (List.range memorySize).map fun (i : Nat) =>
    fingerprint [(i : F), polys.vInitFinal.opcode.getD i 0,
      polys.vInitFinal.rd.getD i 0, polys.vInitFinal.rs1.getD i 0,
      polys.vInitFinal.rs2.getD i 0, polys.vInitFinal.imm.getD i 0,
      polys.tFinal.getD i 0] gamma tau
  ([readFingerprints, writeFingerprints], [initFingerprints, finalFingerprints])

end Bytecode

/-! ### Subtables (`src/jolt/subtable/eq.rs`, `src/jolt/subtable/zero_lsb.rs`) -/

namespace Subtable

variable {F : Type} [CommRing F]

/-- The multilinear extension of an evaluation vector of length `2^n`,
evaluated at a point of `n` coordinates, the first coordinate governing the
most significant bit of the index (the convention of the spec's
`EqPolynomial`, §3).  This is the spec-side notion against which
`evaluate_mle` is compared. -/
def mleEval : List F → List F → F
  | [], v => v.getD 0 0
  | p :: ps, v =>
    (1 - p) * mleEval ps (v.take (v.length / 2)) + p * mleEval ps (v.drop (v.length / 2))

/-- A boolean coordinate as a field element. -/
def boolToField (b : Bool) : F := if b then 1 else 0

/-- The index whose big-endian bit pattern is `bits`. -/
def bitsToNat (bits : List Bool) : Nat :=
  bits.foldl (fun acc b => 2 * acc + if b then 1 else 0) 0

/-- Modelled from the spec: `split_bits` (`utils` is not among the provided
sources).  Splits an index into its high and low `bitsPerOperand`-bit
halves, so that materialization ranges over `x | y` (the source comment in
`eq.rs`). -/
def splitBits (idx bitsPerOperand : Nat) : Nat × Nat :=
  (idx / 2 ^ bitsPerOperand, idx % 2 ^ bitsPerOperand)

/-- `EQSubtable::materialize`. -/
def eqMaterialize (F : Type) [CommRing F] (M : Nat) : List F :=
  let bitsPerOperand := Nat.log2 M / 2
  (List.range M).map fun idx =>
    if (splitBits idx bitsPerOperand).1 = (splitBits idx bitsPerOperand).2 then
      (1 : F)
    else 0

/-- `EQSubtable::evaluate_mle`: `∏_i (x_i y_i + (1 - x_i)(1 - y_i))` over the
two halves of the point. -/
def eqEvaluateMle (point : List F) : F :=
  let b := point.length / 2
  let x := point.take b
  let y := point.drop b
  (List.range b).foldl
    (fun result i =>
      result * (x.getD i 0 * y.getD i 0 + (1 - x.getD i 0) * (1 - y.getD i 0)))
    1

/-- `ZeroLSBSubtable::materialize`: entry `i` is `i - (i % 2)`. -/
def zeroLsbMaterialize (F : Type) [CommRing F] (M : Nat) : List F :=
  (List.range M).map fun i => ((i - i % 2 : Nat) : F)

/-- `ZeroLSBSubtable::evaluate_mle`:
`Σ_{i=1}^{len-1} 2^i * point[len - 1 - i]` (the least significant bit is
skipped). -/
def zeroLsbEvaluateMle (point : List F) : F :=
  (List.range' 1 (point.length - 1)).foldl
    (fun result i => result + (2 : F) ^ i * point.getD (point.length - 1 - i) 0)
    0

end Subtable


/-! ### Concrete example programs for the bytecode memory check -/

namespace Bytecode

/-- A two-row bytecode whose second row does NOT sit at the next instruction
address (it skips `RAM_START_ADDRESS + 4`). -/
def gapBytecode : List ELFRow :=
  [⟨0x80000000, 1, 0, 0, 0, 0⟩, ⟨0x80000008, 8, 8, 8, 8, 8⟩]

/-- A one-step trace executing the second row of `gapBytecode`. -/
def gapTrace : List ELFRow := [⟨0x80000008, 8, 8, 8, 8, 8⟩]

/-- The value of `BytecodePolynomials::new` on `gapBytecode`/`gapTrace`
over `ℤ`. -/
def gapPolys : BytecodePolynomials ℤ :=
  ⟨[2], ⟨[8], [8], [8], [8], [8]⟩,
   ⟨[1, 8, 0, 0], [0, 8, 0, 0], [0, 8, 0, 0], [0, 8, 0, 0], [0, 8, 0, 0]⟩,
   [0], [0, 0, 1, 0]⟩

/-- A two-row bytecode at consecutive instruction addresses. -/
def seqBytecode : List ELFRow :=
  [⟨0x80000000, 1, 2, 3, 4, 5⟩, ⟨0x80000004, 6, 7, 8, 9, 10⟩]

/-- A two-step trace over `seqBytecode`. -/
def seqTrace : List ELFRow :=
  [⟨0x80000004, 6, 7, 8, 9, 10⟩, ⟨0x80000000, 1, 2, 3, 4, 5⟩]

/-- The value of `BytecodePolynomials::new` on `seqBytecode`/`seqTrace`
over `ℤ`. -/
def seqPolys : BytecodePolynomials ℤ :=
  ⟨[1, 0], ⟨[6, 1], [7, 2], [8, 3], [9, 4], [10, 5]⟩,
   ⟨[1, 6, 0, 0], [2, 7, 0, 0], [3, 8, 0, 0], [4, 9, 0, 0], [5, 10, 0, 0]⟩,
   [0, 0], [1, 1, 0, 0]⟩

end Bytecode

/-! ## Theorems -/

/-! ### List helpers -/

theorem getD_set_self {α : Type} (l : List α) (a : Nat) (v d : α) (h : a < l.length) :
    (l.set a v).getD a d = v := by
  induction l generalizing a with
  | nil => simp at h
  | cons x xs ih =>
    cases a with
    | zero => simp
    | succ a => simpa using ih a (by simpa using h)

theorem getD_set_ne {α : Type} (l : List α) {a b : Nat} (v d : α) (h : a ≠ b) :
    (l.set a v).getD b d = l.getD b d := by
  induction l generalizing a b with
  | nil => simp
  | cons x xs ih =>
    cases a with
    | zero =>
      cases b with
      | zero => exact absurd rfl h
      | succ b => simp
    | succ a =>
      cases b with
      | zero => simp
      | succ b => simpa using ih (fun hab => h (by rw [hab]))

theorem getD_replicate_zero {α : Type} [Zero α] (n i : Nat) :
    (List.replicate n (0 : α)).getD i 0 = 0 := by
  induction n generalizing i with
  | zero => simp
  | succ n ih =>
    cases i with
    | zero => simp [List.replicate_succ]
    | succ i =>
      simp only [List.replicate_succ, List.getD_cons_succ]
      exact ih i

theorem getD_map_zero {F : Type} [AddCommMonoidWithOne F] (l : List Nat) (i : Nat) :
    (l.map (Nat.cast : Nat → F)).getD i 0 = ((l.getD i 0 : Nat) : F) := by
  have := List.getD_map l 0 (n := i) (Nat.cast : Nat → F)
  simpa using this

/-! ### Facts about `nextPow2` -/

theorem nextPow2Aux_spec (n : Nat) :
    ∀ (fuel j : Nat), n ≤ 2 ^ j * 2 ^ fuel →
      (∃ k, nextPow2Aux n fuel (2 ^ j) = 2 ^ k) ∧
      n ≤ nextPow2Aux n fuel (2 ^ j) ∧
      ∀ m, n ≤ 2 ^ m → j ≤ m → nextPow2Aux n fuel (2 ^ j) ≤ 2 ^ m := by
  intro fuel
  induction fuel with
  | zero =>
    intro j hj
    simp only [pow_zero, mul_one] at hj
    exact ⟨⟨j, rfl⟩, hj, fun m _ hjm => by
      simpa [nextPow2Aux] using Nat.pow_le_pow_right (by norm_num) hjm⟩
  | succ fuel ih =>
    intro j hj
    by_cases hle : n ≤ 2 ^ j
    · refine ⟨⟨j, ?_⟩, ?_, ?_⟩
      · simp [nextPow2Aux, hle]
      · simp [nextPow2Aux, hle]
      · intro m _ hjm
        simpa [nextPow2Aux, hle] using Nat.pow_le_pow_right (by norm_num) hjm
    · have hstep : nextPow2Aux n (fuel + 1) (2 ^ j) = nextPow2Aux n fuel (2 ^ (j + 1)) := by
        simp [nextPow2Aux, hle, pow_succ, Nat.mul_comm]
      have hrec := ih (j + 1) (by
        calc n ≤ 2 ^ j * 2 ^ (fuel + 1) := hj
        _ = 2 ^ (j + 1) * 2 ^ fuel := by ring)
      refine ⟨hstep ▸ hrec.1, hstep ▸ hrec.2.1, ?_⟩
      intro m hm hjm
      have hjm' : j + 1 ≤ m := by
        rcases Nat.lt_or_ge j m with h | h
        · exact h
        · exact absurd (hm.trans (Nat.pow_le_pow_right (by norm_num) h)) hle
      exact hstep ▸ hrec.2.2 m hm hjm'

theorem le_nextPow2 (n : Nat) : n ≤ nextPow2 n := by
  have h := (nextPow2Aux_spec n n 0 (by simpa using (Nat.lt_two_pow n).le)).2.1
  simpa [nextPow2] using h

theorem nextPow2_isPow2 (n : Nat) : ∃ k, nextPow2 n = 2 ^ k := by
  have h := (nextPow2Aux_spec n n 0 (by simpa using (Nat.lt_two_pow n).le)).1
  simpa [nextPow2] using h

theorem nextPow2_le_pow {n m : Nat} (h : n ≤ 2 ^ m) : nextPow2 n ≤ 2 ^ m := by
  have h' := (nextPow2Aux_spec n n 0 (by simpa using (Nat.lt_two_pow n).le)).2.2 m h (Nat.zero_le m)
  simpa [nextPow2] using h'

theorem nextPow2_pow (k : Nat) : nextPow2 (2 ^ k) = 2 ^ k :=
  le_antisymm (nextPow2_le_pow le_rfl) (le_nextPow2 _)

theorem nextPow2_eq_self {n k : Nat} (h : n = 2 ^ k) : nextPow2 n = n := by
  subst h; exact nextPow2_pow k

/-! ### Grand products: claim C3 -/

namespace GrandProduct

variable {F : Type} [CommRing F]

theorem range_map_mul_prod :
    ∀ (l r : List F), r.length = l.length →
      ((List.range l.length).map fun i => l.getD i 0 * r.getD i 0).prod = l.prod * r.prod := by
  intro l
  induction l with
  | nil =>
    intro r hr
    have hrnil : r = [] := List.length_eq_zero.mp (by simpa using hr)
    simp [hrnil]
  | cons a l ih =>
    intro r hr
    rcases r with _ | ⟨b, r⟩
    · simp at hr
    · have hr' : r.length = l.length := by simpa using hr
      simp only [List.length_cons, List.range_succ_eq_map, List.map_cons, List.map_map,
        List.prod_cons, List.getD_cons_zero]
      have hmap : ((List.range l.length).map
            ((fun i => (a :: l).getD i 0 * (b :: r).getD i 0) ∘ Nat.succ)) =
          (List.range l.length).map fun i => l.getD i 0 * r.getD i 0 := by
        refine List.map_congr_left fun i _ => ?_
        simp [Function.comp, List.getD_cons_succ]
      rw [hmap, ih r hr']
      ring

theorem computeLayer_spec {k : Nat} (l r : List F)
    (hl : l.length = 2 ^ (k + 1)) (hr : r.length = 2 ^ (k + 1)) :
    (computeLayer l r).1.length = 2 ^ k ∧ (computeLayer l r).2.length = 2 ^ k ∧
    (computeLayer l r).1.prod * (computeLayer l r).2.prod = l.prod * r.prod := by
  have hlen : l.length + r.length = 2 ^ (k + 2) := by rw [hl, hr]; ring
  have h4 : (l.length + r.length) / 4 = 2 ^ k := by
    rw [hlen]; rw [pow_succ, pow_succ]; omega
  have h2 : (l.length + r.length) / 2 = 2 ^ (k + 1) := by
    rw [hlen]; rw [pow_succ (n := k + 1)]; omega
  refine ⟨by simp [computeLayer, h4], by simp [computeLayer, h4, h2, pow_succ]; ring_nf; omega, ?_⟩
  have happend :
      (computeLayer l r).1 ++ (computeLayer l r).2 =
        (List.range (2 ^ (k + 1))).map fun i => l.getD i 0 * r.getD i 0 := by
    show ((List.range ((l.length + r.length) / 4)).map fun i => l.getD i 0 * r.getD i 0) ++
        ((List.range' ((l.length + r.length) / 4) ((l.length + r.length) / 2 - (l.length + r.length) / 4)).map
          fun i => l.getD i 0 * r.getD i 0) =
      (List.range (2 ^ (k + 1))).map fun i => l.getD i 0 * r.getD i 0
    rw [h4, h2]
    have hsub : 2 ^ (k + 1) - 2 ^ k = 2 ^ k := by rw [pow_succ]; omega
    rw [hsub]
    have hrange : List.range (2 ^ (k + 1)) = List.range (2 ^ k) ++ List.range' (2 ^ k) (2 ^ k) := by
      have h1 : (2 : Nat) ^ (k + 1) = 2 ^ k + 2 ^ k := by rw [pow_succ]; ring
      rw [h1, List.range_add]
      congr 1
      rw [List.range_eq_range', List.map_add_range']
      norm_num
    rw [hrange, List.map_append]
  have hprod := congrArg List.prod happend
  rw [List.prod_append] at hprod
  rw [hprod]
  have := range_map_mul_prod l r (hr.trans hl.symm)
  rw [hl] at this
  exact this

theorem buildLayers_spec :
    ∀ (cnt : Nat) (l r : List F), l.length = 2 ^ cnt → r.length = 2 ^ cnt →
      (buildLayers l r cnt).1.length = cnt + 1 ∧
      (buildLayers l r cnt).2.length = cnt + 1 ∧
      (buildLayers l r cnt).1.getD 0 [] = l ∧
      (buildLayers l r cnt).2.getD 0 [] = r ∧
      (∀ i, i ≤ cnt → ((buildLayers l r cnt).1.getD i []).length = 2 ^ (cnt - i) ∧
        ((buildLayers l r cnt).2.getD i []).length = 2 ^ (cnt - i)) ∧
      (∀ i, i < cnt →
        (buildLayers l r cnt).1.getD (i + 1) [] =
          (computeLayer ((buildLayers l r cnt).1.getD i []) ((buildLayers l r cnt).2.getD i [])).1 ∧
        (buildLayers l r cnt).2.getD (i + 1) [] =
          (computeLayer ((buildLayers l r cnt).1.getD i []) ((buildLayers l r cnt).2.getD i [])).2) ∧
      ((buildLayers l r cnt).1.getD cnt []).prod * ((buildLayers l r cnt).2.getD cnt []).prod =
        l.prod * r.prod := by
  intro cnt
  induction cnt with
  | zero =>
    intro l r hl hr
    refine ⟨rfl, rfl, rfl, rfl, ?_, ?_, ?_⟩
    · intro i hi
      have hi0 : i = 0 := by omega
      subst hi0
      simp [buildLayers, hl, hr]
    · intro i hi; omega
    · simp [buildLayers]
  | succ cnt ih =>
    intro l r hl hr
    obtain ⟨hA, hB, hprod⟩ := computeLayer_spec l r hl hr
    obtain ⟨ih1, ih2, ihh1, ihh2, ihlen, ihstep, ihprod⟩ :=
      ih (computeLayer l r).1 (computeLayer l r).2 hA hB
    have hunfold : buildLayers l r (cnt + 1) =
        (l :: (buildLayers (computeLayer l r).1 (computeLayer l r).2 cnt).1,
         r :: (buildLayers (computeLayer l r).1 (computeLayer l r).2 cnt).2) := rfl
    rw [hunfold]
    refine ⟨by simpa using ih1, by simpa using ih2, rfl, rfl, ?_, ?_, ?_⟩
    · intro i hi
      cases i with
      | zero => simp [hl, hr]
      | succ i =>
        have hi' : i ≤ cnt := by omega
        have := ihlen i hi'
        simpa [List.getD_cons_succ, Nat.succ_sub_succ] using this
    · intro i hi
      cases i with
      | zero =>
        simp only [List.getD_cons_succ, List.getD_cons_zero]
        exact ⟨ihh1, ihh2⟩
      | succ i =>
        have hi' : i < cnt := by omega
        simpa [List.getD_cons_succ] using ihstep i hi'
    · simp only [List.getD_cons_succ]
      rw [ihprod, hprod]

end GrandProduct

/-- C3: for a dense polynomial of length `2^k`, `k ≥ 1`,
`GrandProductCircuit::new` builds `k` layers, each obtained from the previous
one by `compute_layer` (pairwise multiplication, halving the length: layer `i`
has left/right vectors of length `2^(k-1-i)`), and
`GrandProductCircuit::evaluate` returns the product of all `2^k` input
entries. -/
theorem C3_grand_product_circuit_correct {F : Type} [CommRing F]
    (poly : List F) (k : Nat) (hk : 1 ≤ k) (hlen : poly.length = 2 ^ k) :
    (GrandProduct.newCircuit poly).leftVec.length = k ∧
    (GrandProduct.newCircuit poly).rightVec.length = k ∧
    (∀ i, i < k → ((GrandProduct.newCircuit poly).leftVec.getD i []).length = 2 ^ (k - 1 - i) ∧
      ((GrandProduct.newCircuit poly).rightVec.getD i []).length = 2 ^ (k - 1 - i)) ∧
    (∀ i, i + 1 < k →
      (GrandProduct.newCircuit poly).leftVec.getD (i + 1) [] =
        (GrandProduct.computeLayer ((GrandProduct.newCircuit poly).leftVec.getD i [])
          ((GrandProduct.newCircuit poly).rightVec.getD i [])).1 ∧
      (GrandProduct.newCircuit poly).rightVec.getD (i + 1) [] =
        (GrandProduct.computeLayer ((GrandProduct.newCircuit poly).leftVec.getD i [])
          ((GrandProduct.newCircuit poly).rightVec.getD i [])).2) ∧
    GrandProduct.evalCircuit (GrandProduct.newCircuit poly) = poly.prod := by
  obtain ⟨k', rfl⟩ : ∃ k', k = k' + 1 := ⟨k - 1, by omega⟩
  have hhalf : poly.length / 2 = 2 ^ k' := by rw [hlen, pow_succ]; omega
  have htake : (poly.take (poly.length / 2)).length = 2 ^ k' := by
    rw [List.length_take, hhalf, hlen]
    have : 2 ^ k' ≤ 2 ^ (k' + 1) := Nat.pow_le_pow_right (by norm_num) (by omega)
    omega
  have hdrop : (poly.drop (poly.length / 2)).length = 2 ^ k' := by
    rw [List.length_drop, hhalf, hlen, pow_succ]; omega
  have hlog : Nat.log2 poly.length = k' + 1 := by rw [hlen]; exact Nat.log2_two_pow
  obtain ⟨h1, h2, hh1, hh2, hlayerlen, hstep, hprod⟩ :=
    GrandProduct.buildLayers_spec k' (poly.take (poly.length / 2))
      (poly.drop (poly.length / 2)) htake hdrop
  have hnew : GrandProduct.newCircuit poly =
      { leftVec := (GrandProduct.buildLayers (poly.take (poly.length / 2))
          (poly.drop (poly.length / 2)) k').1,
        rightVec := (GrandProduct.buildLayers (poly.take (poly.length / 2))
          (poly.drop (poly.length / 2)) k').2 } := by
    simp [GrandProduct.newCircuit, hlog]
  rw [hnew]
  refine ⟨by simpa using h1, by simpa using h2, ?_, ?_, ?_⟩
  · intro i hi
    have := hlayerlen i (by omega)
    simpa [Nat.succ_sub_one] using this
  · intro i hi
    have := hstep i (by omega)
    exact this
  · simp only [GrandProduct.evalCircuit]
    rw [h1]
    simp only [Nat.add_sub_cancel]
    obtain ⟨lastlenL, lastlenR⟩ := hlayerlen k' le_rfl
    simp only [Nat.sub_self, pow_zero] at lastlenL lastlenR
    obtain ⟨a, ha⟩ := List.length_eq_one.mp lastlenL
    obtain ⟨b, hb⟩ := List.length_eq_one.mp lastlenR
    rw [ha, hb] at hprod ⊢
    simp only [List.prod_singleton] at hprod
    simp only [List.getD_cons_zero]
    rw [hprod]
    conv_rhs => rw [← List.take_append_drop (poly.length / 2) poly]
    rw [List.prod_append]

/-- Witness for C3 at the concrete input `[1, 2, 3, 4]` over `ℤ`. -/
theorem C3_witness :
    GrandProduct.evalCircuit (GrandProduct.newCircuit ([1, 2, 3, 4] : List ℤ)) = 24 := by
  have h := C3_grand_product_circuit_correct ([1, 2, 3, 4] : List ℤ) 2 (by norm_num) (by decide)
  rw [h.2.2.2.2]
  decide

/-! ### Multiset-equality check: claim C4 -/

/-- C4: the multiset-equality stage of instruction-lookups verification
passes (no assertion fires in `check_multiset_equality`) exactly when the
four hash vectors have their expected lengths and, for every memory index
`i < NUM_MEMORIES`, `init_hash[i / C] * write_hash[i] = final_hash[i] *
read_hash[i]`; a single failing memory makes the check fail, with no
tolerance. -/
theorem C4_check_multiset_equality_iff {F : Type} [CommRing F] [DecidableEq F]
    (ctx : Lookups.LookupCtx F) (h : Lookups.MultisetHashes F) :
    Lookups.checkMultisetEquality ctx h = true ↔
      (h.initHashes.length = ctx.numSubtables ∧
       h.readHashes.length = Lookups.numMemories ctx ∧
       h.writeHashes.length = Lookups.numMemories ctx ∧
       h.finalHashes.length = Lookups.numMemories ctx ∧
       ∀ i, i < Lookups.numMemories ctx →
         h.initHashes.getD (i / ctx.C) 0 * h.writeHashes.getD i 0 =
           h.finalHashes.getD i 0 * h.readHashes.getD i 0) := by
  simp [Lookups.checkMultisetEquality, Lookups.memoryToSubtableIndex,
    List.all_eq_true, List.mem_range, and_assoc]

/-! ### Fingerprints: claim C5 -/

theorem fingerprintLoop_spec {F : Type} [CommRing F] (gamma : F) :
    ∀ (inputs : List F) (result gammaTerm : F),
      Bytecode.fingerprintLoop gamma inputs result gammaTerm =
        result + ∑ i ∈ Finset.range inputs.length,
          inputs.getD i 0 * (gammaTerm * gamma ^ i) := by
  intro inputs
  induction inputs with
  | nil => intro result gammaTerm; simp [Bytecode.fingerprintLoop]
  | cons x rest ih =>
    intro result gammaTerm
    rw [Bytecode.fingerprintLoop, ih]
    rw [List.length_cons, Finset.sum_range_succ']
    have hcongr : ∀ i ∈ Finset.range rest.length,
        (x :: rest).getD (i + 1) 0 * (gammaTerm * gamma ^ (i + 1)) =
          rest.getD i 0 * (gammaTerm * gamma * gamma ^ i) := by
      intro i _
      rw [List.getD_cons_succ, pow_succ]
      ring
    rw [Finset.sum_congr rfl hcongr]
    simp [List.getD_cons_zero]
    ring

/-- Counterexample to C5 as stated: for the flagged instruction-lookup tuple
`(a, v, t, flag) = (0, 0, 0, Some 0)` and challenges `γ = τ = 0` over `ℤ`,
the fingerprint function returns `1`, not the claimed
`t·γ² + v·γ + a - τ = 0`. -/
theorem C5_counterexample :
    Lookups.fingerprint ((0 : ℤ), 0, 0, some 0) 0 0 ≠
      (0 : ℤ) * 0 ^ 2 + 0 * 0 + 0 - 0 := by
  decide

/-- C5 (amended): for the unflagged instruction-lookup tuple the fingerprint
is `Σ componentᵢ·γ^i - τ` over `(a, v, t)`, i.e. `t·γ² + v·γ + a - τ`; for a
flagged tuple `(a, v, t, Some f)` it is instead
`f·(t·γ² + v·γ + a - τ) + 1 - f` (the flag toggles against the
multiplicative identity); and the bytecode fingerprint of any tuple — in
particular the 7-tuple `[a, opcode, rd, rs1, rs2, imm, t]` — is
`Σᵢ inputᵢ·γ^i - τ`. -/
theorem C5_fingerprint_formula {F : Type} [CommRing F] (a v t gamma tau : F) :
    Lookups.fingerprint (a, v, t, none) gamma tau = t * gamma ^ 2 + v * gamma + a - tau ∧
    Lookups.fingerprint (a, v, t, none) gamma tau =
      (∑ i ∈ Finset.range 3, [a, v, t].getD i 0 * gamma ^ i) - tau ∧
    (∀ f : F, Lookups.fingerprint (a, v, t, some f) gamma tau =
      f * (t * gamma ^ 2 + v * gamma + a - tau) + 1 - f) ∧
    (∀ inputs : List F, Bytecode.fingerprint inputs gamma tau =
      (∑ i ∈ Finset.range inputs.length, inputs.getD i 0 * gamma ^ i) - tau) := by
  refine ⟨rfl, ?_, fun f => rfl, ?_⟩
  · show t * gamma ^ 2 + v * gamma + a - tau = _
    rw [Finset.sum_range_succ, Finset.sum_range_succ, Finset.sum_range_succ]
    simp
    ring
  · intro inputs
    rw [Bytecode.fingerprint, fingerprintLoop_spec]
    simp

/-! ### Read/write leaves: claim C6 -/

theorem flatMap_pair_length {α : Type} (f g : Nat → α) (n : Nat) :
    ((List.range n).flatMap fun i => [f i, g i]).length = 2 * n := by
  induction n with
  | zero => simp
  | succ n ih =>
    rw [List.range_succ, List.flatMap_append, List.length_append, ih]
    simp
    omega

theorem flatMap_pair_getD {α : Type} (f g : Nat → α) (n : Nat) (d : α) :
    ∀ m, m < n →
      ((List.range n).flatMap fun i => [f i, g i]).getD (2 * m) d = f m ∧
      ((List.range n).flatMap fun i => [f i, g i]).getD (2 * m + 1) d = g m := by
  induction n with
  | zero => intro m hm; omega
  | succ n ih =>
    intro m hm
    rw [List.range_succ, List.flatMap_append]
    rcases Nat.lt_or_ge m n with h | h
    · constructor
      · rw [List.getD_append _ _ _ _ (by rw [flatMap_pair_length]; omega)]
        exact (ih m h).1
      · rw [List.getD_append _ _ _ _ (by rw [flatMap_pair_length]; omega)]
        exact (ih m h).2
    · have hmn : m = n := by omega
      subst hmn
      constructor
      · rw [List.getD_append_right _ _ _ _ (by rw [flatMap_pair_length])]
        rw [flatMap_pair_length]
        simp
      · rw [List.getD_append_right _ _ _ _ (by rw [flatMap_pair_length]; omega)]
        rw [flatMap_pair_length]
        have : 2 * m + 1 - 2 * m = 1 := by omega
        rw [this]
        simp

theorem getD_map_lt {α β : Type} (f : α → β) (l : List α) {i : Nat}
    (h : i < l.length) (d : β) (d' : α) : (l.map f).getD i d = f (l.getD i d') := by
  induction l generalizing i with
  | nil => simp at h
  | cons x xs ih =>
    cases i with
    | zero => simp
    | succ i => simpa using ih (by simpa using h)

/-- C6: in `InstructionLookups::compute_leaves`, for every memory index, every
step and every pair of challenges, the write leaf fingerprint equals the read
leaf fingerprint at the same step plus `γ²`; equivalently, incrementing the
timestamp component of an unflagged memory tuple shifts its fingerprint by
exactly `γ²` (the write tuple being the read tuple with timestamp `t + 1`). -/
theorem C6_write_leaf_is_read_leaf_plus_gamma_sq {F : Type} [CommRing F]
    (ctx : Lookups.LookupCtx F) (numLookups : Nat)
    (polys : Lookups.InstructionPolynomials F) (gamma tau : F) (m i : Nat)
    (hm : m < Lookups.numMemories ctx) (hi : i < numLookups) :
    ((Lookups.computeLeaves ctx numLookups polys gamma tau).1.getD (2 * m + 1) []).getD i 0 =
      ((Lookups.computeLeaves ctx numLookups polys gamma tau).1.getD (2 * m) []).getD i 0 +
        gamma ^ 2 ∧
    (∀ a v t : F, Lookups.fingerprint (a, v, t + 1, none) gamma tau =
      Lookups.fingerprint (a, v, t, none) gamma tau + gamma ^ 2) := by
  constructor
  · have hpair := flatMap_pair_getD
      (fun memoryIndex => (List.range numLookups).map fun j =>
        (polys.readCts.getD memoryIndex []).getD j 0 * gamma ^ 2 +
          (polys.EPolys.getD memoryIndex []).getD j 0 * gamma +
          (polys.dim.getD (Lookups.memoryToDimensionIndex ctx memoryIndex) []).getD j 0 - tau)
      (fun memoryIndex => ((List.range numLookups).map fun j =>
        (polys.readCts.getD memoryIndex []).getD j 0 * gamma ^ 2 +
          (polys.EPolys.getD memoryIndex []).getD j 0 * gamma +
          (polys.dim.getD (Lookups.memoryToDimensionIndex ctx memoryIndex) []).getD j 0 - tau).map
        fun readFingerprint => readFingerprint + gamma ^ 2)
      (Lookups.numMemories ctx) [] m hm
    have hshape : (Lookups.computeLeaves ctx numLookups polys gamma tau).1 =
        (List.range (Lookups.numMemories ctx)).flatMap fun memoryIndex =>
          [(List.range numLookups).map fun j =>
              (polys.readCts.getD memoryIndex []).getD j 0 * gamma ^ 2 +
                (polys.EPolys.getD memoryIndex []).getD j 0 * gamma +
                (polys.dim.getD (Lookups.memoryToDimensionIndex ctx memoryIndex) []).getD j 0 - tau,
            ((List.range numLookups).map fun j =>
              (polys.readCts.getD memoryIndex []).getD j 0 * gamma ^ 2 +
                (polys.EPolys.getD memoryIndex []).getD j 0 * gamma +
                (polys.dim.getD (Lookups.memoryToDimensionIndex ctx memoryIndex) []).getD j 0 - tau).map
              fun readFingerprint => readFingerprint + gamma ^ 2] := rfl
    rw [hshape, hpair.1, hpair.2]
    rw [getD_map_lt _ _ (by simpa using hi) 0 0]
  · intro a v t
    simp only [Lookups.fingerprint]
    ring

/-- Witness for C6: a one-memory, one-lookup instance over `ℤ` with
`γ = 2`, `τ = 3`. -/
theorem C6_witness :
    (((Lookups.computeLeaves
        (⟨1, 1, 1, 1, fun _ => [0], fun _ vals => vals.sum, [[3]]⟩ : Lookups.LookupCtx ℤ) 1
        ⟨[[4]], [[1]], [[0]], [[9]], [[1]]⟩ 2 3).1.getD 1 []).getD 0 0 =
      ((Lookups.computeLeaves
        (⟨1, 1, 1, 1, fun _ => [0], fun _ vals => vals.sum, [[3]]⟩ : Lookups.LookupCtx ℤ) 1
        ⟨[[4]], [[1]], [[0]], [[9]], [[1]]⟩ 2 3).1.getD 0 []).getD 0 0 + 2 ^ 2) ∧
    Lookups.fingerprint ((5 : ℤ), 6, 7 + 1, none) 2 3 =
      Lookups.fingerprint ((5 : ℤ), 6, 7, none) 2 3 + 2 ^ 2 := by
  have h := C6_write_leaf_is_read_leaf_plus_gamma_sq
    (⟨1, 1, 1, 1, fun _ => [0], fun _ vals => vals.sum, [[3]]⟩ : Lookups.LookupCtx ℤ) 1
    ⟨[[4]], [[1]], [[0]], [[9]], [[1]]⟩ 2 3 0 0 (by decide) (by decide)
  exact ⟨h.1, h.2 5 6 7⟩

/-! ### Instruction flag polynomials: claim C10 -/

namespace Lookups

variable {F : Type} [CommRing F]

theorem setFlags_not :
    ∀ (ops : List LookupOp) (bv : List (List Nat)) (j0 i j : Nat),
      (∀ k, (hk : k < ops.length) → ¬(j = j0 + k ∧ (ops.get ⟨k, hk⟩).opcode = i)) →
      ((setFlags bv j0 ops).getD i []).getD j 0 = (bv.getD i []).getD j 0 := by
  intro ops
  induction ops with
  | nil => intro bv j0 i j _; rfl
  | cons op rest ih =>
    intro bv j0 i j h
    rw [setFlags]
    rw [ih _ (j0 + 1) i j (fun k hk hcontra => by
      refine h (k + 1) (by simpa using Nat.succ_lt_succ hk) ?_
      refine ⟨by omega, ?_⟩
      simpa using hcontra.2)]
    have h0 := h 0 (by simp)
    rcases Nat.lt_or_ge op.opcode bv.length with hc | hc
    · by_cases hio : i = op.opcode
      · subst hio
        rw [getD_set_self bv op.opcode _ [] hc]
        have hjj : j ≠ j0 := fun hjj => h0 ⟨by omega, by simp⟩
        rw [getD_set_ne _ _ _ (fun hjeq => hjj hjeq.symm)]
      · rw [getD_set_ne bv _ _ (fun hoi => hio hoi.symm)]
    · rw [List.set_eq_of_length_le hc]

theorem setFlags_mem (numInstructions m : Nat) :
    ∀ (ops : List LookupOp) (bv : List (List Nat)) (j0 : Nat),
      (∀ row ∈ bv, row.length = m) → bv.length = numInstructions →
      (∀ op ∈ ops, op.opcode < numInstructions) → j0 + ops.length ≤ m →
      ∀ (k : Nat) (hk : k < ops.length),
        ((setFlags bv j0 ops).getD (ops.get ⟨k, hk⟩).opcode []).getD (j0 + k) 0 = 1 := by
  intro ops
  induction ops with
  | nil => intro bv j0 _ _ _ _ k hk; simp at hk
  | cons op rest ih =>
    intro bv j0 hrows hnum hops hj k hk
    have hc : op.opcode < bv.length := hnum ▸ hops op (by simp)
    have hrow : (bv.getD op.opcode []).length = m := by
      rw [List.getD_eq_getElem?_getD, List.getElem?_eq_getElem hc]
      exact hrows _ (List.getElem_mem hc)
    have hrows' : ∀ row ∈ bv.set op.opcode ((bv.getD op.opcode []).set j0 1),
        row.length = m := by
      intro row hrmem
      rcases List.mem_or_eq_of_mem_set hrmem with hmem | heq
      · exact hrows row hmem
      · rw [heq, List.length_set]; exact hrow
    have hnum' : (bv.set op.opcode ((bv.getD op.opcode []).set j0 1)).length =
        numInstructions := by rw [List.length_set]; exact hnum
    cases k with
    | zero =>
      rw [setFlags]
      rw [setFlags_not rest _ (j0 + 1) _ (j0 + 0) (fun k hk hcontra => by omega)]
      simp only [List.get]
      rw [getD_set_self bv op.opcode _ [] hc]
      have hj0 : j0 < m := by simpa using Nat.lt_of_lt_of_le (by omega) hj
      rw [Nat.add_zero, getD_set_self _ j0 _ 0 (hrow ▸ hj0)]
    | succ k =>
      rw [setFlags]
      have hk' : k < rest.length := by simpa using Nat.lt_of_succ_lt_succ hk
      have hj2 : j0 + 1 + rest.length ≤ m := by
        simp only [List.length_cons] at hj; omega
      have := ih (bv.set op.opcode ((bv.getD op.opcode []).set j0 1)) (j0 + 1)
        hrows' hnum' (fun o ho => hops o (by simp [ho])) hj2 k hk'
      have harith : j0 + (k + 1) = j0 + 1 + k := by omega
      rw [harith]
      exact this

theorem initFlags_entry (numInstructions m i j : Nat) :
    (((List.replicate numInstructions (List.replicate m (0 : Nat))).getD i []).getD j 0) = 0 := by
  induction numInstructions generalizing i with
  | zero => simp
  | succ n ih =>
    cases i with
    | zero =>
      simp only [List.replicate_succ, List.getD_cons_zero]
      exact getD_replicate_zero m j
    | succ i =>
      simp only [List.replicate_succ, List.getD_cons_succ]
      exact ih i

/-- Full characterization of `instruction_flag_bitvectors`: entry `(i, j)` is
`1` exactly when step `j` exists and executes opcode `i`, else `0`. -/
theorem flagBitvectors_entry (numInstructions m : Nat) (ops : List LookupOp)
    (hops : ∀ op ∈ ops, op.opcode < numInstructions) (hm : ops.length ≤ m) :
    ∀ i j, ((flagBitvectors numInstructions m ops).getD i []).getD j 0 =
      if h : j < ops.length then (if (ops.get ⟨j, h⟩).opcode = i then 1 else 0)
      else 0 := by
  intro i j
  rcases Nat.lt_or_ge j ops.length with hj | hj
  · by_cases hop : (ops.get ⟨j, hj⟩).opcode = i
    · rw [dif_pos hj, if_pos hop]
      rw [flagBitvectors, ← hop]
      have := setFlags_mem numInstructions m ops
        (List.replicate numInstructions (List.replicate m 0)) 0
        (fun row hrow => by rw [List.eq_of_mem_replicate hrow]; simp)
        (by simp) hops (by simpa using hm) j hj
      simpa using this
    · rw [dif_pos hj, if_neg hop]
      rw [flagBitvectors, setFlags_not ops _ 0 i j (fun k hk hcontra => by
        have hkj : k = j := by omega
        subst hkj
        exact hop hcontra.2)]
      exact initFlags_entry numInstructions m i j
  · rw [dif_neg (by omega)]
    rw [flagBitvectors, setFlags_not ops _ 0 i j (fun k hk hcontra => by omega)]
    exact initFlags_entry numInstructions m i j

/-- Entry of the cast flag polynomials produced by `polynomialize`. -/
theorem flagPolys_entry (ctx : LookupCtx F) (ops : List LookupOp)
    (hops : ∀ op ∈ ops, op.opcode < ctx.numInstructions) :
    ∀ i j, ((polynomialize ctx ops).instructionFlagPolys.getD i []).getD j 0 =
      if h : j < ops.length then
        (if (ops.get ⟨j, h⟩).opcode = i then (1 : F) else 0)
      else 0 := by
  intro i j
  have hshape : (polynomialize ctx ops).instructionFlagPolys =
      (flagBitvectors ctx.numInstructions (nextPow2 ops.length) ops).map fun bits =>
        bits.map (Nat.cast : Nat → F) := rfl
  rw [hshape]
  have houter : ((flagBitvectors ctx.numInstructions (nextPow2 ops.length) ops).map
      (fun bits => bits.map (Nat.cast : Nat → F))).getD i [] =
      ((flagBitvectors ctx.numInstructions (nextPow2 ops.length) ops).getD i []).map
        (Nat.cast : Nat → F) := by
    have := List.getD_map (flagBitvectors ctx.numInstructions (nextPow2 ops.length) ops)
      ([] : List Nat) (n := i) (fun bits => bits.map (Nat.cast : Nat → F))
    simpa using this
  rw [houter, getD_map_zero]
  rw [flagBitvectors_entry ctx.numInstructions (nextPow2 ops.length) ops hops
    (le_nextPow2 _) i j]
  split
  · split
    · simp
    · simp
  · simp

end Lookups

/-- C10: the instruction flag polynomials produced by `polynomialize` are
one-hot per executed step: at every step `j < ops.len()` the flag polynomial
of the opcode of `ops[j]` is `1` at `j` and every other instruction's flag
polynomial is `0` there; at every padded index `j ≥ ops.len()` all
instruction flag polynomials are `0`. -/
theorem C10_instruction_flags_one_hot {F : Type} [CommRing F]
    (ctx : Lookups.LookupCtx F) (ops : List Lookups.LookupOp)
    (hops : ∀ op ∈ ops, op.opcode < ctx.numInstructions) :
    (∀ j, (hj : j < ops.length) →
      (((Lookups.polynomialize ctx ops).instructionFlagPolys.getD
          (ops.get ⟨j, hj⟩).opcode []).getD j 0 = (1 : F)) ∧
      ∀ i, i < ctx.numInstructions → i ≠ (ops.get ⟨j, hj⟩).opcode →
        ((Lookups.polynomialize ctx ops).instructionFlagPolys.getD i []).getD j 0 = (0 : F)) ∧
    ∀ j, ops.length ≤ j → ∀ i, i < ctx.numInstructions →
      ((Lookups.polynomialize ctx ops).instructionFlagPolys.getD i []).getD j 0 = (0 : F) := by
  constructor
  · intro j hj
    constructor
    · rw [Lookups.flagPolys_entry ctx ops hops _ j, dif_pos hj, if_pos rfl]
    · intro i _ hne
      rw [Lookups.flagPolys_entry ctx ops hops i j, dif_pos hj,
        if_neg (fun heq => hne heq.symm)]
  · intro j hj i _
    rw [Lookups.flagPolys_entry ctx ops hops i j, dif_neg (by omega)]

/-- Witness for C10: a two-instruction catalogue with trace `[opcode 1]`
over `ℤ`; step `0` has flag `1` for opcode `1`, flag `0` for opcode `0`, and
the padded index `1` has flag `0`. -/
theorem C10_witness :
    (((Lookups.polynomialize
        (⟨1, 2, 2, 1, fun _ => [0], fun _ vals => vals.sum, [[3, 4]]⟩ : Lookups.LookupCtx ℤ)
        [⟨1, [0]⟩]).instructionFlagPolys.getD 1 []).getD 0 0 = (1 : ℤ)) ∧
    (((Lookups.polynomialize
        (⟨1, 2, 2, 1, fun _ => [0], fun _ vals => vals.sum, [[3, 4]]⟩ : Lookups.LookupCtx ℤ)
        [⟨1, [0]⟩]).instructionFlagPolys.getD 0 []).getD 0 0 = (0 : ℤ)) ∧
    (((Lookups.polynomialize
        (⟨1, 2, 2, 1, fun _ => [0], fun _ vals => vals.sum, [[3, 4]]⟩ : Lookups.LookupCtx ℤ)
        [⟨1, [0]⟩]).instructionFlagPolys.getD 0 []).getD 1 0 = (0 : ℤ)) := by
  have h := C10_instruction_flags_one_hot
    (⟨1, 2, 2, 1, fun _ => [0], fun _ vals => vals.sum, [[3, 4]]⟩ : Lookups.LookupCtx ℤ)
    [⟨1, [0]⟩] (by decide)
  exact ⟨(h.1 0 (by decide)).1, (h.1 0 (by decide)).2 0 (by decide) (by decide),
    h.2 1 (by decide) 0 (by decide)⟩

/-! ### Sumcheck claim: claim C2 -/

theorem list_range_map_sum {M : Type} [AddCommMonoid M] (f : Nat → M) (n : Nat) :
    ((List.range n).map f).sum = ∑ i ∈ Finset.range n, f i := by
  induction n with
  | zero => simp
  | succ n ih => rw [List.range_succ, List.map_append, List.sum_append,
      Finset.sum_range_succ, ih]; simp

namespace Lookups

variable {F : Type} [CommRing F]

theorem claimSum_spec (ctx : LookupCtx F) (EPolys : List (List F)) (eqEvals : List F) :
    ∀ (ops : List LookupOp) (k0 : Nat),
      claimSum ctx EPolys eqEvals k0 ops =
        ∑ k ∈ Finset.range ops.length,
          eqEvals.getD (k0 + k) 0 * ctx.combine (ops.getD k default).opcode
            ((instructionToMemoryIndices ctx (ops.getD k default).opcode).map
              fun memoryIndex => (EPolys.getD memoryIndex []).getD (k0 + k) 0) := by
  intro ops
  induction ops with
  | nil => intro k0; simp [claimSum]
  | cons op rest ih =>
    intro k0
    rw [claimSum, ih (k0 + 1), List.length_cons, Finset.sum_range_succ']
    have htail : (∑ k ∈ Finset.range rest.length,
        eqEvals.getD (k0 + 1 + k) 0 * ctx.combine (rest.getD k default).opcode
          ((instructionToMemoryIndices ctx (rest.getD k default).opcode).map
            fun memoryIndex => (EPolys.getD memoryIndex []).getD (k0 + 1 + k) 0)) =
        ∑ k ∈ Finset.range rest.length,
          eqEvals.getD (k0 + (k + 1)) 0 *
            ctx.combine ((op :: rest).getD (k + 1) default).opcode
              ((instructionToMemoryIndices ctx ((op :: rest).getD (k + 1) default).opcode).map
                fun memoryIndex => (EPolys.getD memoryIndex []).getD (k0 + (k + 1)) 0) := by
      refine Finset.sum_congr rfl fun k _ => ?_
      rw [List.getD_cons_succ]
      have harith : k0 + (k + 1) = k0 + 1 + k := by omega
      rw [harith]
    rw [htail]
    have hhead : eqEvals.getD (k0 + 0) 0 *
        ctx.combine ((op :: rest).getD 0 default).opcode
          ((instructionToMemoryIndices ctx ((op :: rest).getD 0 default).opcode).map
            fun memoryIndex => (EPolys.getD memoryIndex []).getD (k0 + 0) 0) =
        eqEvals.getD k0 0 * ctx.combine op.opcode
          ((instructionToMemoryIndices ctx op.opcode).map
            fun memoryIndex => (EPolys.getD memoryIndex []).getD k0 0) := by
      norm_num
    rw [hhead]
    exact add_comm _ _

/-- At an executed step `x`, the flag-weighted collation `combine_lookups`
collapses to the executing instruction's own collation of its dereferenced
operands; at a padded step it is `0`. -/
theorem combineLookups_at_step (ctx : LookupCtx F) (ops : List LookupOp)
    (hops : ∀ op ∈ ops, op.opcode < ctx.numInstructions) (x : Nat) :
    (x < ops.length →
      combineLookups ctx ((polynomialize ctx ops).EPolys.map fun p => p.getD x 0)
        ((polynomialize ctx ops).instructionFlagPolys.map fun p => p.getD x 0) =
      ctx.combine (ops.getD x default).opcode
        ((instructionToMemoryIndices ctx (ops.getD x default).opcode).map
          fun memoryIndex =>
            (((polynomialize ctx ops).EPolys.getD memoryIndex []).getD x 0))) ∧
    (ops.length ≤ x →
      combineLookups ctx ((polynomialize ctx ops).EPolys.map fun p => p.getD x 0)
        ((polynomialize ctx ops).instructionFlagPolys.map fun p => p.getD x 0) = 0) := by
  have hvals : ∀ memoryIndex,
      (((polynomialize ctx ops).EPolys.map fun p => p.getD x 0).getD memoryIndex 0) =
        ((polynomialize ctx ops).EPolys.getD memoryIndex []).getD x 0 := by
    intro memoryIndex
    have := List.getD_map (polynomialize ctx ops).EPolys ([] : List F)
      (n := memoryIndex) (fun p => p.getD x 0)
    simpa using this
  have hflags : ∀ i,
      (((polynomialize ctx ops).instructionFlagPolys.map fun p => p.getD x 0).getD i 0) =
        ((polynomialize ctx ops).instructionFlagPolys.getD i []).getD x 0 := by
    intro i
    have := List.getD_map (polynomialize ctx ops).instructionFlagPolys ([] : List F)
      (n := i) (fun p => p.getD x 0)
    simpa using this
  constructor
  · intro hx
    have hgetD : ops.getD x default = ops.get ⟨x, hx⟩ := by
      rw [List.getD_eq_getElem ops default hx]
      rfl
    have ho : (ops.getD x default).opcode < ctx.numInstructions := by
      rw [hgetD]
      exact hops _ (List.get_mem ops x hx)
    rw [combineLookups, list_range_map_sum]
    rw [Finset.sum_eq_single (ops.getD x default).opcode]
    · rw [hflags, flagPolys_entry ctx ops hops _ x, dif_pos hx, hgetD, if_pos rfl, one_mul]
      refine congrArg _ (List.map_congr_left fun memoryIndex _ => hvals memoryIndex)
    · intro i _ hne
      rw [hflags, flagPolys_entry ctx ops hops i x, dif_pos hx,
        if_neg (fun heq => hne (by rw [hgetD]; exact heq.symm))]
      ring
    · intro habs
      exact absurd (Finset.mem_range.mpr ho) habs
  · intro hx
    rw [combineLookups, list_range_map_sum]
    refine Finset.sum_eq_zero fun i _ => ?_
    rw [hflags, flagPolys_entry ctx ops hops i x, dif_neg (by omega)]
    ring

end Lookups

/-- C2: the claimed evaluation computed by `compute_sumcheck_claim` from the
trace, before any sumcheck round, equals the hypercube sum
`Σ_x eq(r, x) · Σ_i flag_i(x) · g_i(E(x))`, where the flag and `E`
polynomials come from `polynomialize` on the same trace; in particular every
padded step (index at or beyond `ops.len()`) contributes zero to both
sides. -/
theorem C2_sumcheck_claim_is_hypercube_sum {F : Type} [CommRing F]
    (ctx : Lookups.LookupCtx F) (ops : List Lookups.LookupOp) (r : List F)
    (hops : ∀ op ∈ ops, op.opcode < ctx.numInstructions)
    (hlen : ops.length ≤ 2 ^ r.length) :
    Lookups.computeSumcheckClaim ctx ops (Lookups.polynomialize ctx ops).EPolys
        (Lookups.eqEvalsList r) =
      (∑ x ∈ Finset.range (2 ^ r.length),
        (Lookups.eqEvalsList r).getD x 0 *
          Lookups.combineLookups ctx
            ((Lookups.polynomialize ctx ops).EPolys.map fun p => p.getD x 0)
            ((Lookups.polynomialize ctx ops).instructionFlagPolys.map
              fun p => p.getD x 0)) ∧
    ∀ x, ops.length ≤ x →
      Lookups.combineLookups ctx
        ((Lookups.polynomialize ctx ops).EPolys.map fun p => p.getD x 0)
        ((Lookups.polynomialize ctx ops).instructionFlagPolys.map
          fun p => p.getD x 0) = 0 := by
  constructor
  · rw [Lookups.computeSumcheckClaim, Lookups.claimSum_spec]
    rw [← Finset.sum_subset (Finset.range_subset.mpr hlen)
      (fun x _ hx => by
        have hxlen : ops.length ≤ x := by
          rcases Nat.lt_or_ge x ops.length with h | h
          · exact absurd (Finset.mem_range.mpr h) hx
          · exact h
        rw [(Lookups.combineLookups_at_step ctx ops hops x).2 hxlen]
        ring)]
    refine Finset.sum_congr rfl fun x hx => ?_
    rw [(Lookups.combineLookups_at_step ctx ops hops x).1 (Finset.mem_range.mp hx)]
    simp only [Nat.zero_add]
  · intro x hx
    exact (Lookups.combineLookups_at_step ctx ops hops x).2 hx

/-- Witness for C2: a one-instruction, one-step trace over `ℤ` with
`r = [5]`. -/
theorem C2_witness :
    (∀ op ∈ [(⟨0, [1]⟩ : Lookups.LookupOp)], op.opcode <
      (⟨1, 2, 1, 1, fun _ => [0], fun _ vals => vals.sum, [[3, 4]]⟩ :
        Lookups.LookupCtx ℤ).numInstructions) ∧
    Lookups.computeSumcheckClaim
        (⟨1, 2, 1, 1, fun _ => [0], fun _ vals => vals.sum, [[3, 4]]⟩ :
          Lookups.LookupCtx ℤ)
        [⟨0, [1]⟩]
        (Lookups.polynomialize
          (⟨1, 2, 1, 1, fun _ => [0], fun _ vals => vals.sum, [[3, 4]]⟩ :
            Lookups.LookupCtx ℤ) [⟨0, [1]⟩]).EPolys
        (Lookups.eqEvalsList [(5 : ℤ)]) =
      ∑ x ∈ Finset.range (2 ^ 1),
        (Lookups.eqEvalsList [(5 : ℤ)]).getD x 0 *
          Lookups.combineLookups
            (⟨1, 2, 1, 1, fun _ => [0], fun _ vals => vals.sum, [[3, 4]]⟩ :
              Lookups.LookupCtx ℤ)
            ((Lookups.polynomialize
              (⟨1, 2, 1, 1, fun _ => [0], fun _ vals => vals.sum, [[3, 4]]⟩ :
                Lookups.LookupCtx ℤ) [⟨0, [1]⟩]).EPolys.map fun p => p.getD x 0)
            ((Lookups.polynomialize
              (⟨1, 2, 1, 1, fun _ => [0], fun _ vals => vals.sum, [[3, 4]]⟩ :
                Lookups.LookupCtx ℤ) [⟨0, [1]⟩]).instructionFlagPolys.map
              fun p => p.getD x 0) := by
  refine ⟨by decide, ?_⟩
  exact (C2_sumcheck_claim_is_hypercube_sum
    (⟨1, 2, 1, 1, fun _ => [0], fun _ vals => vals.sum, [[3, 4]]⟩ : Lookups.LookupCtx ℤ)
    [⟨0, [1]⟩] [(5 : ℤ)] (by decide) (by decide)).1

/-! ### Per-memory counters of `polynomialize`: claim C9 -/

theorem range_map_getD {α : Type} (f : Nat → α) (n i : Nat) (d : α) (h : i < n) :
    ((List.range n).map f).getD i d = f i := by
  simp [List.getD_eq_getElem?_getD, List.getElem?_map, List.getElem?_range, h]

theorem countP_range_succ_shift (p : Nat → Bool) (k : Nat) :
    (List.range (k + 1)).countP p =
      ((if p 0 then 1 else 0) + (List.range k).countP fun i => p (i + 1)) := by
  rw [List.range_succ_eq_map, List.countP_cons, List.countP_map]
  have : (p ∘ Nat.succ) = fun i => p (i + 1) := rfl
  rw [this]
  omega

namespace Lookups

variable {F : Type} [CommRing F]

theorem memLoop_lengths (ctx : LookupCtx F) (memoryIndex : Nat) (subtableVals : List F)
    (accessSequence : List Nat) :
    ∀ (ops : List LookupOp) (j0 : Nat) (f : List Nat),
      (memLoop ctx memoryIndex subtableVals accessSequence j0 ops f).1.length = ops.length ∧
      (memLoop ctx memoryIndex subtableVals accessSequence j0 ops f).2.2.length = ops.length ∧
      (memLoop ctx memoryIndex subtableVals accessSequence j0 ops f).2.1.length = f.length := by
  intro ops
  induction ops with
  | nil => intro j0 f; simp [memLoop]
  | cons op rest ih =>
    intro j0 f
    by_cases hused : memoryIndex ∈ instructionToMemoryIndices ctx op.opcode
    · simp only [memLoop, if_pos hused, List.length_cons]
      obtain ⟨h1, h2, h3⟩ := ih (j0 + 1) (f.set (accessSequence.getD j0 0)
        (f.getD (accessSequence.getD j0 0) 0 + 1))
      exact ⟨by rw [h1], by rw [h2], by rw [h3, List.length_set]⟩
    · simp only [memLoop, if_neg hused, List.length_cons]
      obtain ⟨h1, h2, h3⟩ := ih (j0 + 1) f
      exact ⟨by rw [h1], by rw [h2], by rw [h3]⟩

theorem memLoop_final (ctx : LookupCtx F) (memoryIndex : Nat) (subtableVals : List F)
    (accessSequence : List Nat) (addrOf : LookupOp → Nat) :
    ∀ (ops : List LookupOp) (j0 : Nat) (f : List Nat) (a : Nat), a < f.length →
      (∀ k, k < ops.length → accessSequence.getD (j0 + k) 0 = addrOf (ops.getD k default)) →
      (memLoop ctx memoryIndex subtableVals accessSequence j0 ops f).2.1.getD a 0 =
        f.getD a 0 + ops.countP fun op =>
          decide (memoryIndex ∈ instructionToMemoryIndices ctx op.opcode ∧ addrOf op = a) := by
  intro ops
  induction ops with
  | nil => intro j0 f a _ _; simp [memLoop]
  | cons op rest ih =>
    intro j0 f a ha haccess
    have hhead : accessSequence.getD j0 0 = addrOf op := by
      simpa using haccess 0 (by simp)
    have haccess' : ∀ k, k < rest.length →
        accessSequence.getD (j0 + 1 + k) 0 = addrOf (rest.getD k default) := by
      intro k hk
      have := haccess (k + 1) (by simpa using Nat.succ_lt_succ hk)
      rw [List.getD_cons_succ] at this
      rw [← this]
      congr 1
      omega
    rw [List.countP_cons]
    by_cases hused : memoryIndex ∈ instructionToMemoryIndices ctx op.opcode
    · simp only [memLoop, if_pos hused, hhead]
      have ha' : a < (f.set (addrOf op) (f.getD (addrOf op) 0 + 1)).length := by
        rw [List.length_set]; exact ha
      rw [ih (j0 + 1) _ a ha' haccess']
      by_cases hba : addrOf op = a
      · subst hba
        rw [getD_set_self f _ _ 0 ha]
        have hp : (decide (memoryIndex ∈ instructionToMemoryIndices ctx op.opcode ∧
            addrOf op = addrOf op)) = true := by simp [hused]
        rw [hp]
        simp
        omega
      · rw [getD_set_ne f _ _ hba]
        have hp : (decide (memoryIndex ∈ instructionToMemoryIndices ctx op.opcode ∧
            addrOf op = a)) = false := by simp [hba]
        rw [hp]
        simp
    · simp only [memLoop, if_neg hused]
      rw [ih (j0 + 1) f a ha haccess']
      have hp : (decide (memoryIndex ∈ instructionToMemoryIndices ctx op.opcode ∧
          addrOf op = a)) = false := by simp [hused]
      rw [hp]
      simp

theorem memLoop_E (ctx : LookupCtx F) (memoryIndex : Nat) (subtableVals : List F)
    (accessSequence : List Nat) (addrOf : LookupOp → Nat) :
    ∀ (ops : List LookupOp) (j0 : Nat) (f : List Nat) (k : Nat), k < ops.length →
      (∀ k', k' < ops.length → accessSequence.getD (j0 + k') 0 = addrOf (ops.getD k' default)) →
      (memLoop ctx memoryIndex subtableVals accessSequence j0 ops f).2.2.getD k 0 =
        if memoryIndex ∈ instructionToMemoryIndices ctx (ops.getD k default).opcode then
          subtableVals.getD (addrOf (ops.getD k default)) 0
        else 0 := by
  intro ops
  induction ops with
  | nil => intro j0 f k hk; simp at hk
  | cons op rest ih =>
    intro j0 f k hk haccess
    have hhead : accessSequence.getD j0 0 = addrOf op := by
      simpa using haccess 0 (by simp)
    have haccess' : ∀ k', k' < rest.length →
        accessSequence.getD (j0 + 1 + k') 0 = addrOf (rest.getD k' default) := by
      intro k' hk'
      have := haccess (k' + 1) (by simpa using Nat.succ_lt_succ hk')
      rw [List.getD_cons_succ] at this
      rw [← this]
      congr 1
      omega
    by_cases hused : memoryIndex ∈ instructionToMemoryIndices ctx op.opcode
    · simp only [memLoop, if_pos hused, hhead]
      cases k with
      | zero => simp [hused]
      | succ k =>
        rw [List.getD_cons_succ, List.getD_cons_succ]
        exact ih (j0 + 1) _ k (by simpa using Nat.lt_of_succ_lt_succ hk) haccess'
    · simp only [memLoop, if_neg hused]
      cases k with
      | zero => simp [hused]
      | succ k =>
        rw [List.getD_cons_succ, List.getD_cons_succ]
        exact ih (j0 + 1) f k (by simpa using Nat.lt_of_succ_lt_succ hk) haccess'

theorem memLoop_read_unused (ctx : LookupCtx F) (memoryIndex : Nat) (subtableVals : List F)
    (accessSequence : List Nat) :
    ∀ (ops : List LookupOp) (j0 : Nat) (f : List Nat) (k : Nat), k < ops.length →
      memoryIndex ∉ instructionToMemoryIndices ctx (ops.getD k default).opcode →
      (memLoop ctx memoryIndex subtableVals accessSequence j0 ops f).1.getD k 0 = 0 := by
  intro ops
  induction ops with
  | nil => intro j0 f k hk; simp at hk
  | cons op rest ih =>
    intro j0 f k hk hnot
    by_cases hused : memoryIndex ∈ instructionToMemoryIndices ctx op.opcode
    · simp only [memLoop, if_pos hused]
      cases k with
      | zero => exact absurd hused hnot
      | succ k =>
        rw [List.getD_cons_succ]
        exact ih (j0 + 1) _ k (by simpa using Nat.lt_of_succ_lt_succ hk)
          (by simpa using hnot)
    · simp only [memLoop, if_neg hused]
      cases k with
      | zero => simp
      | succ k =>
        rw [List.getD_cons_succ]
        exact ih (j0 + 1) f k (by simpa using Nat.lt_of_succ_lt_succ hk)
          (by simpa using hnot)

theorem memLoop_read_used (ctx : LookupCtx F) (memoryIndex : Nat) (subtableVals : List F)
    (accessSequence : List Nat) (addrOf : LookupOp → Nat) :
    ∀ (ops : List LookupOp) (j0 : Nat) (f : List Nat) (k : Nat), k < ops.length →
      (∀ k', k' < ops.length → accessSequence.getD (j0 + k') 0 = addrOf (ops.getD k' default)) →
      memoryIndex ∈ instructionToMemoryIndices ctx (ops.getD k default).opcode →
      addrOf (ops.getD k default) < f.length →
      (memLoop ctx memoryIndex subtableVals accessSequence j0 ops f).1.getD k 0 =
        f.getD (addrOf (ops.getD k default)) 0 +
          (ops.take k).countP fun op =>
            decide (memoryIndex ∈ instructionToMemoryIndices ctx op.opcode ∧
              addrOf op = addrOf (ops.getD k default)) := by
  intro ops
  induction ops with
  | nil => intro j0 f k hk; simp at hk
  | cons op rest ih =>
    intro j0 f k hk haccess hused hrange
    have hhead : accessSequence.getD j0 0 = addrOf op := by
      simpa using haccess 0 (by simp)
    have haccess' : ∀ k', k' < rest.length →
        accessSequence.getD (j0 + 1 + k') 0 = addrOf (rest.getD k' default) := by
      intro k' hk'
      have := haccess (k' + 1) (by simpa using Nat.succ_lt_succ hk')
      rw [List.getD_cons_succ] at this
      rw [← this]
      congr 1
      omega
    cases k with
    | zero =>
      have hused0 : memoryIndex ∈ instructionToMemoryIndices ctx op.opcode := by
        simpa using hused
      simp only [memLoop, if_pos hused0, hhead]
      simp
    | succ k =>
      have hk' : k < rest.length := by simpa using Nat.lt_of_succ_lt_succ hk
      have hused' : memoryIndex ∈ instructionToMemoryIndices ctx
          (rest.getD k default).opcode := by simpa using hused
      have hrange2 : addrOf (rest.getD k default) < f.length := by
        rw [List.getD_cons_succ] at hrange; exact hrange
      rw [List.getD_cons_succ, List.take_succ_cons, List.countP_cons]
      by_cases hused0 : memoryIndex ∈ instructionToMemoryIndices ctx op.opcode
      · simp only [memLoop, if_pos hused0, hhead]
        have hrange' : addrOf (rest.getD k default) <
            (f.set (addrOf op) (f.getD (addrOf op) 0 + 1)).length := by
          rw [List.length_set]; exact hrange2
        rw [List.getD_cons_succ, ih (j0 + 1) _ k hk' haccess' hused' hrange']
        by_cases hba : addrOf op = addrOf (rest.getD k default)
        · rw [← hba, getD_set_self f _ _ 0 (hba ▸ hrange2)]
          have hp : (decide (memoryIndex ∈ instructionToMemoryIndices ctx op.opcode ∧
              addrOf op = addrOf op)) = true := by simp [hused0]
          rw [hp]
          simp
          omega
        · rw [getD_set_ne f _ _ hba]
          have hp : (decide (memoryIndex ∈ instructionToMemoryIndices ctx op.opcode ∧
              addrOf op = addrOf (rest.getD k default))) = false := by
            simp only [decide_eq_false_iff_not]
            rintro ⟨-, hcontra⟩
            exact hba hcontra
          rw [hp]
          simp
      · simp only [memLoop, if_neg hused0]
        rw [List.getD_cons_succ, ih (j0 + 1) f k hk' haccess' hused' hrange2]
        have hp : (decide (memoryIndex ∈ instructionToMemoryIndices ctx op.opcode ∧
            addrOf op = addrOf (rest.getD k default))) = false := by simp [hused0]
        rw [hp]
        simp

omit [CommRing F] in
/-- Entry `k < ops.length` of the `dimIndex`-th access sequence is the
`dimIndex`-th chunk index of `ops[k]`. -/
theorem accessSequence_getD (ctx : LookupCtx F) (ops : List LookupOp) (dimIndex : Nat)
    (hdim : dimIndex < ctx.C) (k : Nat) (hk : k < ops.length) :
    ((subtableLookupIndices ctx ops).getD dimIndex []).getD k 0 =
      (ops.getD k default).indices.getD dimIndex 0 := by
  simp only [subtableLookupIndices]
  rw [range_map_getD _ _ _ _ hdim]
  rw [List.getD_append _ _ _ _ (by rw [List.length_map]; exact hk)]
  have hmap := List.getD_map ops default (n := k) (fun op => op.indices.getD dimIndex 0)
  have hd : (default : LookupOp).indices.getD dimIndex 0 = 0 := rfl
  rw [hd] at hmap
  exact hmap

end Lookups

/-- C9: after `polynomialize`, for every memory index: `final_cts[a]` counts
the trace steps whose instruction uses that memory and whose access sequence
addresses `a`; for each such step `j`, `read_cts[j]` counts the earlier such
steps addressing the same address and `E[j]` is the materialized subtable
value at that address; and wherever the memory is unused — a step whose
instruction does not touch it, or a padding index at or beyond `ops.len()` —
`read_cts[j] = 0` and `E[j] = 0`. -/
theorem C9_polynomialize_memory_invariants {F : Type} [CommRing F]
    (ctx : Lookups.LookupCtx F) (ops : List Lookups.LookupOp) (memoryIndex : Nat)
    (hmem : memoryIndex < Lookups.numMemories ctx)
    (haddr : ∀ op ∈ ops,
      op.indices.getD (Lookups.memoryToDimensionIndex ctx memoryIndex) 0 < ctx.M) :
    (∀ a, a < ctx.M →
      ((Lookups.polynomialize ctx ops).finalCts.getD memoryIndex []).getD a 0 =
        ((ops.countP fun op =>
          decide (memoryIndex ∈ Lookups.instructionToMemoryIndices ctx op.opcode ∧
            op.indices.getD (Lookups.memoryToDimensionIndex ctx memoryIndex) 0 = a) : Nat) :
          F)) ∧
    (∀ j, j < ops.length →
      memoryIndex ∈ Lookups.instructionToMemoryIndices ctx (ops.getD j default).opcode →
        ((Lookups.polynomialize ctx ops).readCts.getD memoryIndex []).getD j 0 =
          (((ops.take j).countP fun op =>
            decide (memoryIndex ∈ Lookups.instructionToMemoryIndices ctx op.opcode ∧
              op.indices.getD (Lookups.memoryToDimensionIndex ctx memoryIndex) 0 =
                (ops.getD j default).indices.getD
                  (Lookups.memoryToDimensionIndex ctx memoryIndex) 0) : Nat) : F) ∧
        ((Lookups.polynomialize ctx ops).EPolys.getD memoryIndex []).getD j 0 =
          (ctx.materializedSubtables.getD
            (Lookups.memoryToSubtableIndex ctx memoryIndex) []).getD
            ((ops.getD j default).indices.getD
              (Lookups.memoryToDimensionIndex ctx memoryIndex) 0) 0) ∧
    (∀ j, j < ops.length →
      memoryIndex ∉ Lookups.instructionToMemoryIndices ctx (ops.getD j default).opcode →
        ((Lookups.polynomialize ctx ops).readCts.getD memoryIndex []).getD j 0 = (0 : F) ∧
        ((Lookups.polynomialize ctx ops).EPolys.getD memoryIndex []).getD j 0 = (0 : F)) ∧
    (∀ j, ops.length ≤ j →
      ((Lookups.polynomialize ctx ops).readCts.getD memoryIndex []).getD j 0 = (0 : F) ∧
      ((Lookups.polynomialize ctx ops).EPolys.getD memoryIndex []).getD j 0 = (0 : F)) := by
  have hC : 0 < ctx.C := by
    rcases Nat.eq_zero_or_pos ctx.C with h | h
    · rw [Lookups.numMemories, h] at hmem; omega
    · exact h
  have hdim : Lookups.memoryToDimensionIndex ctx memoryIndex < ctx.C := Nat.mod_lt _ hC
  set dimIndex := Lookups.memoryToDimensionIndex ctx memoryIndex with hdimdef
  set subtableVals := ctx.materializedSubtables.getD
    (Lookups.memoryToSubtableIndex ctx memoryIndex) [] with hsvdef
  set accessSeq := (Lookups.subtableLookupIndices ctx ops).getD dimIndex [] with hasdef
  set out := Lookups.memLoop ctx memoryIndex subtableVals accessSeq 0 ops
    (List.replicate ctx.M 0) with houtdef
  have haccess : ∀ k, k < ops.length →
      accessSeq.getD (0 + k) 0 = (ops.getD k default).indices.getD dimIndex 0 := by
    intro k hk
    rw [Nat.zero_add, hasdef]
    exact Lookups.accessSequence_getD ctx ops dimIndex hdim k hk
  obtain ⟨hlen1, hlen2, hlen3⟩ := Lookups.memLoop_lengths ctx memoryIndex subtableVals
    accessSeq ops 0 (List.replicate ctx.M 0)
  have hpm : Lookups.polynomializeMem ctx ops memoryIndex =
      (out.1 ++ List.replicate (nextPow2 ops.length - ops.length) 0, out.2.1,
        out.2.2 ++ List.replicate (nextPow2 ops.length - ops.length) (0 : F)) := rfl
  have hfinal : (Lookups.polynomialize ctx ops).finalCts.getD memoryIndex [] =
      (Lookups.polynomializeMem ctx ops memoryIndex).2.1.map (Nat.cast : Nat → F) := by
    simp only [Lookups.polynomialize]
    exact range_map_getD _ _ _ _ hmem
  have hreadp : (Lookups.polynomialize ctx ops).readCts.getD memoryIndex [] =
      (Lookups.polynomializeMem ctx ops memoryIndex).1.map (Nat.cast : Nat → F) := by
    simp only [Lookups.polynomialize]
    exact range_map_getD _ _ _ _ hmem
  have hEp : (Lookups.polynomialize ctx ops).EPolys.getD memoryIndex [] =
      (Lookups.polynomializeMem ctx ops memoryIndex).2.2 := by
    simp only [Lookups.polynomialize]
    exact range_map_getD _ _ _ _ hmem
  have hreadnat : ∀ j, j < ops.length →
      (Lookups.polynomializeMem ctx ops memoryIndex).1.getD j 0 = out.1.getD j 0 := by
    intro j hj
    rw [hpm]
    exact List.getD_append _ _ _ _ (by rw [hlen1]; exact hj)
  have hEF : ∀ j, j < ops.length →
      (Lookups.polynomializeMem ctx ops memoryIndex).2.2.getD j 0 = out.2.2.getD j 0 := by
    intro j hj
    rw [hpm]
    exact List.getD_append _ _ _ _ (by rw [hlen2]; exact hj)
  refine ⟨?_, ?_, ?_, ?_⟩
  · intro a ha
    rw [hfinal, getD_map_zero]
    have hfnat : (Lookups.polynomializeMem ctx ops memoryIndex).2.1 = out.2.1 := by rw [hpm]
    rw [hfnat]
    rw [Lookups.memLoop_final ctx memoryIndex subtableVals accessSeq
      (fun op => op.indices.getD dimIndex 0) ops 0 (List.replicate ctx.M 0) a
      (by rw [List.length_replicate]; exact ha) haccess]
    rw [getD_replicate_zero]
    norm_num
  · intro j hj hused
    have hmemop : ops.getD j default ∈ ops := by
      rw [List.getD_eq_getElem ops default hj]
      exact List.getElem_mem hj
    constructor
    · rw [hreadp, getD_map_zero, hreadnat j hj]
      rw [Lookups.memLoop_read_used ctx memoryIndex subtableVals accessSeq
        (fun op => op.indices.getD dimIndex 0) ops 0 (List.replicate ctx.M 0) j hj
        haccess hused
        (by rw [List.length_replicate]; exact haddr _ hmemop)]
      rw [getD_replicate_zero]
      norm_num
    · rw [hEp, hEF j hj]
      rw [Lookups.memLoop_E ctx memoryIndex subtableVals accessSeq
        (fun op => op.indices.getD dimIndex 0) ops 0 (List.replicate ctx.M 0) j hj haccess]
      rw [if_pos hused]
  · intro j hj hnot
    constructor
    · rw [hreadp, getD_map_zero, hreadnat j hj]
      rw [Lookups.memLoop_read_unused ctx memoryIndex subtableVals accessSeq ops 0
        (List.replicate ctx.M 0) j hj hnot]
      norm_num
    · rw [hEp, hEF j hj]
      rw [Lookups.memLoop_E ctx memoryIndex subtableVals accessSeq
        (fun op => op.indices.getD dimIndex 0) ops 0 (List.replicate ctx.M 0) j hj haccess]
      rw [if_neg hnot]
  · intro j hj
    constructor
    · rw [hreadp, getD_map_zero, hpm]
      rw [List.getD_append_right _ _ _ _ (by rw [hlen1]; exact hj)]
      rw [getD_replicate_zero]
      norm_num
    · rw [hEp, hpm]
      rw [List.getD_append_right _ _ _ _ (by rw [hlen2]; exact hj)]
      rw [getD_replicate_zero]

/-- Witness for C9: two steps, both addressing chunk index `1` of a
two-entry subtable, over `ℤ`. -/
theorem C9_witness :
    (((Lookups.polynomialize
        (⟨1, 2, 1, 1, fun _ => [0], fun _ vals => vals.sum, [[3, 4]]⟩ :
          Lookups.LookupCtx ℤ) [⟨0, [1]⟩, ⟨0, [1]⟩]).finalCts.getD 0 []).getD 1 0 =
      ((([⟨0, [1]⟩, ⟨0, [1]⟩] : List Lookups.LookupOp).countP fun op =>
        decide (0 ∈ Lookups.instructionToMemoryIndices
            (⟨1, 2, 1, 1, fun _ => [0], fun _ vals => vals.sum, [[3, 4]]⟩ :
              Lookups.LookupCtx ℤ) op.opcode ∧
          op.indices.getD 0 0 = 1) : Nat) : ℤ)) ∧
    (((Lookups.polynomialize
        (⟨1, 2, 1, 1, fun _ => [0], fun _ vals => vals.sum, [[3, 4]]⟩ :
          Lookups.LookupCtx ℤ) [⟨0, [1]⟩, ⟨0, [1]⟩]).EPolys.getD 0 []).getD 1 0 =
      ((((⟨1, 2, 1, 1, fun _ => [0], fun _ vals => vals.sum, [[3, 4]]⟩ :
          Lookups.LookupCtx ℤ)).materializedSubtables.getD 0 []).getD 1 0)) := by
  have h := C9_polynomialize_memory_invariants
    (⟨1, 2, 1, 1, fun _ => [0], fun _ vals => vals.sum, [[3, 4]]⟩ : Lookups.LookupCtx ℤ)
    [⟨0, [1]⟩, ⟨0, [1]⟩] 0 (by decide) (by decide)
  exact ⟨h.1 1 (by decide), (h.2.1 1 (by decide) (by decide)).2⟩

/-! ### Verification failure modes: claim C8 -/

/-- Counterexample to C8 as stated: a primary-sumcheck final-round mismatch
(`eq_eval * combine_lookups(..) ≠ claim_last`) makes `verify` hit the
`assert_eq!` and panic instead of returning a typed `ProofVerifyError`.
Instance over `ℤ`: the sumcheck returns claim `5` but the collation
evaluates to `0`. -/
theorem C8_counterexample :
    Lookups.verify
        (⟨1, 1, 1, 1, fun _ => [0], fun _ vals => vals.sum, [[3]]⟩ : Lookups.LookupCtx ℤ)
        (some (5, [])) 1 [0] [0] true true true ⟨[1], [1], [1], [1]⟩ =
      Lookups.Outcome.panicked ∧
    Lookups.Outcome.panicked ≠ Lookups.Outcome.err := by
  constructor
  · decide
  · decide

/-- C8 (amended): a sumcheck-round failure or an opening-proof failure makes
`InstructionLookups::verify` return a typed `ProofVerifyError`; but a
primary-sumcheck final-round mismatch and a multiset-equality mismatch are
`assert`s and abort by panicking rather than returning the typed error.  In
every case, `verify` accepts only when all five checks pass. -/
theorem C8_verify_outcomes {F : Type} [CommRing F] [DecidableEq F]
    (ctx : Lookups.LookupCtx F) (sumcheckResult : Option (F × List F))
    (eqEval : F) (EOpenings flagOpenings : List F)
    (primaryOpeningsOk memorySumcheckOk memoryOpeningsOk : Bool)
    (hashes : Lookups.MultisetHashes F) :
    (Lookups.verify ctx sumcheckResult eqEval EOpenings flagOpenings
        primaryOpeningsOk memorySumcheckOk memoryOpeningsOk hashes =
        Lookups.Outcome.ok ↔
      (∃ res, sumcheckResult = some res ∧
        eqEval * Lookups.combineLookups ctx EOpenings flagOpenings = res.1) ∧
      primaryOpeningsOk = true ∧ memorySumcheckOk = true ∧
      Lookups.checkMultisetEquality ctx hashes = true ∧ memoryOpeningsOk = true) ∧
    (sumcheckResult = none →
      Lookups.verify ctx sumcheckResult eqEval EOpenings flagOpenings
        primaryOpeningsOk memorySumcheckOk memoryOpeningsOk hashes =
        Lookups.Outcome.err) ∧
    (∀ res, sumcheckResult = some res →
      eqEval * Lookups.combineLookups ctx EOpenings flagOpenings ≠ res.1 →
      Lookups.verify ctx sumcheckResult eqEval EOpenings flagOpenings
        primaryOpeningsOk memorySumcheckOk memoryOpeningsOk hashes =
        Lookups.Outcome.panicked) ∧
    (∀ res, sumcheckResult = some res →
      eqEval * Lookups.combineLookups ctx EOpenings flagOpenings = res.1 →
      primaryOpeningsOk = false →
      Lookups.verify ctx sumcheckResult eqEval EOpenings flagOpenings
        primaryOpeningsOk memorySumcheckOk memoryOpeningsOk hashes =
        Lookups.Outcome.err) ∧
    (∀ res, sumcheckResult = some res →
      eqEval * Lookups.combineLookups ctx EOpenings flagOpenings = res.1 →
      primaryOpeningsOk = true → memorySumcheckOk = true →
      Lookups.checkMultisetEquality ctx hashes = false →
      Lookups.verify ctx sumcheckResult eqEval EOpenings flagOpenings
        primaryOpeningsOk memorySumcheckOk memoryOpeningsOk hashes =
        Lookups.Outcome.panicked) := by
  refine ⟨?_, ?_, ?_, ?_, ?_⟩
  · constructor
    · intro hok
      cases sumcheckResult with
      | none => simp [Lookups.verify] at hok
      | some res =>
        simp only [Lookups.verify] at hok
        by_cases h1 : eqEval * Lookups.combineLookups ctx EOpenings flagOpenings = res.1
        · rw [if_neg (by simpa using h1)] at hok
          by_cases h2 : primaryOpeningsOk = false
          · rw [if_pos h2] at hok; exact absurd hok (by simp)
          · rw [if_neg h2] at hok
            by_cases h3 : memorySumcheckOk = false
            · rw [if_pos h3] at hok; exact absurd hok (by simp)
            · rw [if_neg h3] at hok
              by_cases h4 : Lookups.checkMultisetEquality ctx hashes = false
              · rw [if_pos h4] at hok; exact absurd hok (by simp)
              · rw [if_neg h4] at hok
                by_cases h5 : memoryOpeningsOk = false
                · rw [if_pos h5] at hok; exact absurd hok (by simp)
                · exact ⟨⟨res, rfl, h1⟩, by simpa using h2, by simpa using h3,
                    by simpa using h4, by simpa using h5⟩
        · rw [if_pos (by simpa using h1)] at hok
          exact absurd hok (by simp)
    · rintro ⟨⟨res, hres, h1⟩, h2, h3, h4, h5⟩
      subst hres
      simp [Lookups.verify, h1, h2, h3, h4, h5]
  · intro hnone
    subst hnone
    rfl
  · intro res hres h1
    subst hres
    simp [Lookups.verify, h1]
  · intro res hres h1 h2
    subst hres
    simp [Lookups.verify, h1, h2]
  · intro res hres h1 h2 h3 h4
    subst hres
    simp [Lookups.verify, h1, h2, h3, h4]

/-- Witness for C8 (amended): a concrete multiset-equality mismatch over `ℤ`
panics after all earlier checks pass. -/
theorem C8_witness :
    Lookups.verify
        (⟨1, 1, 1, 1, fun _ => [0], fun _ vals => vals.sum, [[3]]⟩ : Lookups.LookupCtx ℤ)
        (some (0, [])) 0 [0] [0] true true true ⟨[2], [1], [1], [1]⟩ =
      Lookups.Outcome.panicked := by
  exact (C8_verify_outcomes
    (⟨1, 1, 1, 1, fun _ => [0], fun _ vals => vals.sum, [[3]]⟩ : Lookups.LookupCtx ℤ)
    (some (0, [])) 0 [0] [0] true true true ⟨[2], [1], [1], [1]⟩).2.2.2.2
    (0, []) rfl (by decide) rfl rfl (by decide)

/-! ### Subtable MLE consistency: claim C7 -/

theorem getD_take {α : Type} : ∀ (v : List α) (n i : Nat) (d : α), i < n →
    (v.take n).getD i d = v.getD i d := by
  intro v
  induction v with
  | nil => intro n i d _; simp
  | cons x xs ih =>
    intro n i d h
    cases n with
    | zero => omega
    | succ n =>
      cases i with
      | zero => simp
      | succ i =>
        simp only [List.take_succ_cons, List.getD_cons_succ]
        exact ih n i d (by omega)

theorem getD_drop {α : Type} : ∀ (v : List α) (n i : Nat) (d : α),
    (v.drop n).getD i d = v.getD (n + i) d := by
  intro v
  induction v with
  | nil => intro n i d; simp
  | cons x xs ih =>
    intro n i d
    cases n with
    | zero => simp
    | succ n =>
      simp only [List.drop_succ_cons]
      rw [ih n i d]
      have harith : n + 1 + i = (n + i) + 1 := by omega
      rw [harith, List.getD_cons_succ]

namespace Subtable

variable {F : Type} [CommRing F]

theorem mleEval_replicate_zero : ∀ (p : List F) (n : Nat),
    mleEval p (List.replicate n (0 : F)) = 0 := by
  intro p
  induction p with
  | nil => intro n; exact getD_replicate_zero n 0
  | cons r ps ih =>
    intro n
    rw [mleEval, List.take_replicate, List.drop_replicate, ih, ih]
    ring

theorem mleEval_map_smul (k : F) : ∀ (p : List F) (v : List F),
    mleEval p (v.map fun x => k * x) = k * mleEval p v := by
  intro p
  induction p with
  | nil =>
    intro v
    cases v with
    | nil => simp [mleEval]
    | cons x xs => simp [mleEval]
  | cons r ps ih =>
    intro v
    rw [mleEval, mleEval, List.length_map]
    rw [← List.map_take, ← List.map_drop, ih, ih]
    ring

theorem bitsToNat_go : ∀ (bs : List Bool) (acc : Nat),
    List.foldl (fun acc b => 2 * acc + if b then 1 else 0) acc bs =
      acc * 2 ^ bs.length + bitsToNat bs := by
  intro bs
  induction bs with
  | nil => intro acc; simp [bitsToNat]
  | cons b bs ih =>
    intro acc
    rw [List.foldl_cons, ih]
    have hrhs : bitsToNat (b :: bs) =
        (2 * 0 + if b then 1 else 0) * 2 ^ bs.length + bitsToNat bs := by
      rw [bitsToNat, List.foldl_cons, ih]
    rw [hrhs, List.length_cons, pow_succ]
    cases b <;> simp <;> ring

theorem bitsToNat_cons (b : Bool) (bs : List Bool) :
    bitsToNat (b :: bs) = (if b then 1 else 0) * 2 ^ bs.length + bitsToNat bs := by
  rw [bitsToNat, List.foldl_cons, bitsToNat_go]
  cases b <;> simp

theorem bitsToNat_lt : ∀ (bs : List Bool), bitsToNat bs < 2 ^ bs.length := by
  intro bs
  induction bs with
  | nil => simp [bitsToNat]
  | cons b bs ih =>
    rw [bitsToNat_cons, List.length_cons]
    have h2 : (2 : Nat) ^ (bs.length + 1) = 2 ^ bs.length + 2 ^ bs.length := by
      rw [pow_succ]; ring
    cases b <;> simp <;> omega

theorem mleEval_boolean : ∀ (bits : List Bool) (v : List F),
    v.length = 2 ^ bits.length →
    mleEval (bits.map boolToField) v = v.getD (bitsToNat bits) 0 := by
  intro bits
  induction bits with
  | nil => intro v _; rfl
  | cons b bs ih =>
    intro v hv
    have hhalf : v.length / 2 = 2 ^ bs.length := by
      rw [hv, List.length_cons, pow_succ]; omega
    have htake : (v.take (v.length / 2)).length = 2 ^ bs.length := by
      rw [List.length_take, hhalf, hv, List.length_cons]
      have : (2 : Nat) ^ bs.length ≤ 2 ^ (bs.length + 1) :=
        Nat.pow_le_pow_right (by norm_num) (by omega)
      omega
    have hdrop : (v.drop (v.length / 2)).length = 2 ^ bs.length := by
      rw [List.length_drop, hhalf, hv, List.length_cons, pow_succ]; omega
    rw [List.map_cons, mleEval, ih _ htake, ih _ hdrop]
    rw [getD_take v _ _ 0 (hhalf ▸ bitsToNat_lt bs), getD_drop v _ _ 0, hhalf]
    rw [bitsToNat_cons]
    cases b
    · simp [boolToField]
    · simp [boolToField]

/-- Two-stage evaluation: evaluating the MLE of `v` at `p ++ q` equals first
collapsing the `q`-variables inside each `2^|q|`-sized block of `v`, then
evaluating the `p`-variables over the vector of block values. -/
theorem mleEval_append : ∀ (p q v : List F), v.length = 2 ^ (p.length + q.length) →
    mleEval (p ++ q) v =
      mleEval p ((List.range (2 ^ p.length)).map fun x =>
        mleEval q ((v.drop (x * 2 ^ q.length)).take (2 ^ q.length))) := by
  intro p
  induction p with
  | nil =>
    intro q v hv
    have hvq : v.length = 2 ^ q.length := by simpa using hv
    have hr1 : List.range (2 ^ ([] : List F).length) = [0] := rfl
    rw [hr1, List.map_cons, List.map_nil]
    conv_rhs => rw [mleEval]
    rw [List.getD_cons_zero, List.nil_append]
    congr 1
    rw [Nat.zero_mul, List.drop_zero, List.take_of_length_le (le_of_eq hvq)]
  | cons r ps ih =>
    intro q v hv
    have hlen : v.length = 2 ^ (ps.length + q.length + 1) := by
      rw [hv]
      congr 1
      simp only [List.length_cons]
      omega
    have hhalf : v.length / 2 = 2 ^ (ps.length + q.length) := by
      rw [hlen, pow_succ]; omega
    have htakelen : (v.take (v.length / 2)).length = 2 ^ (ps.length + q.length) := by
      rw [List.length_take, hhalf, hlen]
      have : (2 : Nat) ^ (ps.length + q.length) ≤ 2 ^ (ps.length + q.length + 1) :=
        Nat.pow_le_pow_right (by norm_num) (by omega)
      omega
    have hdroplen : (v.drop (v.length / 2)).length = 2 ^ (ps.length + q.length) := by
      rw [List.length_drop, hhalf, hlen, pow_succ]; omega
    have hcons : (r :: ps) ++ q = r :: (ps ++ q) := rfl
    rw [hcons, mleEval, ih q _ htakelen, ih q _ hdroplen]
    have hWlen : ((List.range (2 ^ (r :: ps).length)).map fun x =>
        mleEval q ((v.drop (x * 2 ^ q.length)).take (2 ^ q.length))).length =
        2 ^ (ps.length + 1) := by
      rw [List.length_map, List.length_range, List.length_cons]
    conv_rhs => rw [mleEval]
    rw [hWlen]
    have hWhalf : (2 : Nat) ^ (ps.length + 1) / 2 = 2 ^ ps.length := by
      rw [pow_succ]; omega
    rw [hWhalf]
    have hsplit : (2 : Nat) ^ (r :: ps).length = 2 ^ ps.length + 2 ^ ps.length := by
      rw [List.length_cons, pow_succ]; ring
    have hrange : List.range (2 ^ (r :: ps).length) =
        List.range (2 ^ ps.length) ++
          (List.range (2 ^ ps.length)).map fun x => 2 ^ ps.length + x := by
      rw [hsplit, List.range_add]
    have hfrontlen : ((List.range (2 ^ ps.length)).map fun x =>
        mleEval q ((v.drop (x * 2 ^ q.length)).take (2 ^ q.length))).length =
        2 ^ ps.length := by
      rw [List.length_map, List.length_range]
    have htake_eq : (((List.range (2 ^ (r :: ps).length)).map fun x =>
        mleEval q ((v.drop (x * 2 ^ q.length)).take (2 ^ q.length))).take
          (2 ^ ps.length)) =
        (List.range (2 ^ ps.length)).map fun x =>
          mleEval q (((v.take (v.length / 2)).drop (x * 2 ^ q.length)).take
            (2 ^ q.length)) := by
      rw [hrange, List.map_append, List.take_left' hfrontlen]
      refine List.map_congr_left fun x hx => ?_
      have hxlt : x < 2 ^ ps.length := by simpa using hx
      have hxb : x * 2 ^ q.length + 2 ^ q.length ≤ 2 ^ (ps.length + q.length) := by
        have hmul : (x + 1) * 2 ^ q.length ≤ 2 ^ ps.length * 2 ^ q.length :=
          Nat.mul_le_mul_right _ (by omega)
        rw [Nat.add_mul, one_mul, ← pow_add] at hmul
        exact hmul
      congr 1
      rw [List.drop_take, List.take_take, hhalf]
      congr 1
      omega
    have hdrop_eq : (((List.range (2 ^ (r :: ps).length)).map fun x =>
        mleEval q ((v.drop (x * 2 ^ q.length)).take (2 ^ q.length))).drop
          (2 ^ ps.length)) =
        (List.range (2 ^ ps.length)).map fun x =>
          mleEval q (((v.drop (v.length / 2)).drop (x * 2 ^ q.length)).take
            (2 ^ q.length)) := by
      rw [hrange, List.map_append, List.drop_left' hfrontlen, List.map_map]
      refine List.map_congr_left fun x hx => ?_
      simp only [Function.comp_apply]
      congr 1
      have harith : (2 ^ ps.length + x) * 2 ^ q.length =
          2 ^ (ps.length + q.length) + x * 2 ^ q.length := by
        rw [Nat.add_mul, pow_add]
      rw [harith, ← hhalf, List.drop_drop]
    rw [htake_eq, hdrop_eq]

theorem eqMaterialize_block (b x : Nat) (hx : x < 2 ^ b) :
    ((eqMaterialize F (2 ^ (2 * b))).drop (x * 2 ^ b)).take (2 ^ b) =
      (List.range (2 ^ b)).map fun y => if x = y then (1 : F) else 0 := by
  have hbits : Nat.log2 (2 ^ (2 * b)) / 2 = b := by
    rw [Nat.log2_two_pow]; omega
  have hM : (x + 1) * 2 ^ b ≤ 2 ^ (2 * b) := by
    have hmul : (x + 1) * 2 ^ b ≤ 2 ^ b * 2 ^ b := Nat.mul_le_mul_right _ (by omega)
    have hpow : (2 : Nat) ^ b * 2 ^ b = 2 ^ (2 * b) := by
      rw [← pow_add]; congr 1; omega
    omega
  have hlenM : (eqMaterialize F (2 ^ (2 * b))).length = 2 ^ (2 * b) := by
    simp [eqMaterialize]
  refine List.ext_getElem ?_ ?_
  · rw [List.length_take, List.length_drop, hlenM, List.length_map, List.length_range]
    have := Nat.add_mul x 1 (2 ^ b)
    omega
  · intro y hy1 hy2
    have hylen : y < 2 ^ b := by
      rw [List.length_map, List.length_range] at hy2; exact hy2
    rw [List.getElem_take, List.getElem_drop, List.getElem_map, List.getElem_range]
    have hidx : x * 2 ^ b + y < 2 ^ (2 * b) := by
      have := Nat.add_mul x 1 (2 ^ b)
      omega
    simp only [eqMaterialize]
    rw [List.getElem_map, List.getElem_range, hbits]
    have hdiv : (splitBits (x * 2 ^ b + y) b).1 = x := by
      simp only [splitBits]
      rw [Nat.mul_comm x (2 ^ b), Nat.mul_add_div (Nat.pos_pow_of_pos b (by norm_num)),
        Nat.div_eq_of_lt hylen]
      omega
    have hmod : (splitBits (x * 2 ^ b + y) b).2 = y := by
      simp only [splitBits]
      rw [Nat.mul_comm x (2 ^ b), Nat.mul_add_mod, Nat.mod_eq_of_lt hylen]
    rw [hdiv, hmod]

theorem indicator_take (b x : Nat) :
    ((List.range (2 ^ (b + 1))).map fun y => if x = y then (1 : F) else 0).take (2 ^ b) =
      (List.range (2 ^ b)).map fun y => if x = y then (1 : F) else 0 := by
  rw [← List.map_take, List.take_range]
  have hmin : (2 : Nat) ^ b ⊓ 2 ^ (b + 1) = 2 ^ b := by
    have h := Nat.pow_le_pow_right (show 1 ≤ 2 by norm_num) (show b ≤ b + 1 by omega)
    omega
  rw [hmin]

theorem range_pow_succ_split (b : Nat) :
    List.range (2 ^ (b + 1)) =
      List.range (2 ^ b) ++ (List.range (2 ^ b)).map fun y => 2 ^ b + y := by
  have h : (2 : Nat) ^ (b + 1) = 2 ^ b + 2 ^ b := by rw [pow_succ]; ring
  rw [h, List.range_add]

theorem indicator_drop_zero (b x : Nat) (hx : x < 2 ^ b) :
    ((List.range (2 ^ (b + 1))).map fun y => if x = y then (1 : F) else 0).drop (2 ^ b) =
      List.replicate (2 ^ b) (0 : F) := by
  rw [range_pow_succ_split, List.map_append,
    List.drop_left' (by rw [List.length_map, List.length_range]), List.map_map]
  rw [List.eq_replicate_iff]
  refine ⟨by rw [List.length_map, List.length_range], ?_⟩
  intro z hz
  rw [List.mem_map] at hz
  obtain ⟨y, _, hyz⟩ := hz
  simp only [Function.comp_apply] at hyz
  rw [← hyz, if_neg (by omega)]

theorem indicator_take_zero (b x : Nat) :
    ((List.range (2 ^ (b + 1))).map fun y =>
        if 2 ^ b + x = y then (1 : F) else 0).take (2 ^ b) =
      List.replicate (2 ^ b) (0 : F) := by
  rw [← List.map_take, List.take_range]
  have hmin : (2 : Nat) ^ b ⊓ 2 ^ (b + 1) = 2 ^ b := by
    have : (2 : Nat) ^ b ≤ 2 ^ (b + 1) := Nat.pow_le_pow_right (by norm_num) (by omega)
    omega
  rw [hmin, List.eq_replicate_iff]
  refine ⟨by rw [List.length_map, List.length_range], ?_⟩
  intro z hz
  rw [List.mem_map] at hz
  obtain ⟨y, hy, hyz⟩ := hz
  rw [List.mem_range] at hy
  rw [← hyz, if_neg (by omega)]

theorem indicator_drop_shift (b x : Nat) :
    ((List.range (2 ^ (b + 1))).map fun y =>
        if 2 ^ b + x = y then (1 : F) else 0).drop (2 ^ b) =
      (List.range (2 ^ b)).map fun y => if x = y then (1 : F) else 0 := by
  rw [range_pow_succ_split, List.map_append,
    List.drop_left' (by rw [List.length_map, List.length_range]), List.map_map]
  refine List.map_congr_left fun y _ => ?_
  simp only [Function.comp_apply]
  by_cases hxy : x = y
  · rw [if_pos (by omega), if_pos hxy]
  · rw [if_neg (by omega), if_neg hxy]

theorem foldl_mul_eq_prod (f : Nat → F) : ∀ (l : List Nat) (a : F),
    l.foldl (fun result i => result * f i) a = a * (l.map f).prod := by
  intro l
  induction l with
  | nil => intro a; simp
  | cons x xs ih =>
    intro a
    rw [List.foldl_cons, ih, List.map_cons, List.prod_cons]
    ring

theorem foldl_add_eq_sum (f : Nat → F) : ∀ (l : List Nat) (a : F),
    l.foldl (fun result i => result + f i) a = a + (l.map f).sum := by
  intro l
  induction l with
  | nil => intro a; simp
  | cons x xs ih =>
    intro a
    rw [List.foldl_cons, ih, List.map_cons, List.sum_cons]
    ring

/-- Inner identity for the EQ subtable: the MLE of the indicator blocks,
evaluated in two stages, is the product `∏_i (x_i y_i + (1-x_i)(1-y_i))`. -/
theorem eq_inner : ∀ (px py : List F), px.length = py.length →
    mleEval px ((List.range (2 ^ px.length)).map fun x =>
      mleEval py ((List.range (2 ^ py.length)).map fun y =>
        if x = y then (1 : F) else 0)) =
    ((List.range px.length).map fun i =>
      px.getD i 0 * py.getD i 0 + (1 - px.getD i 0) * (1 - py.getD i 0)).prod := by
  intro px
  induction px with
  | nil =>
    intro py hlen
    have hpy : py = [] := List.length_eq_zero.mp (by simpa using hlen.symm)
    subst hpy
    norm_num [mleEval]
  | cons r ps ih =>
    intro py hlen
    rcases py with _ | ⟨s, qs⟩
    · simp at hlen
    have hn : ps.length = qs.length := by simpa using hlen
    have hWlen : ((List.range (2 ^ (r :: ps).length)).map fun x =>
        mleEval (s :: qs) ((List.range (2 ^ (s :: qs).length)).map fun y =>
          if x = y then (1 : F) else 0)).length = 2 ^ (ps.length + 1) := by
      rw [List.length_map, List.length_range, List.length_cons]
    rw [mleEval, hWlen]
    have hWhalf : (2 : Nat) ^ (ps.length + 1) / 2 = 2 ^ ps.length := by
      rw [pow_succ]; omega
    rw [hWhalf]
    have hconslen : ((r :: ps) : List F).length = ps.length + 1 := List.length_cons r ps
    have hconslen2 : ((s :: qs) : List F).length = ps.length + 1 := by
      rw [List.length_cons, hn]
    -- the value of one indicator block under the (s :: qs) evaluation
    have hblock : ∀ x : Nat, x < 2 ^ ps.length →
        mleEval (s :: qs) ((List.range (2 ^ (s :: qs).length)).map fun y =>
          if x = y then (1 : F) else 0) =
        (1 - s) * mleEval qs ((List.range (2 ^ ps.length)).map fun y =>
          if x = y then (1 : F) else 0) := by
      intro x hx
      rw [hconslen2, mleEval]
      have helen : ((List.range (2 ^ (ps.length + 1))).map fun y =>
          if x = y then (1 : F) else 0).length = 2 ^ (ps.length + 1) := by
        rw [List.length_map, List.length_range]
      rw [helen, hWhalf, indicator_take, indicator_drop_zero _ _ hx,
        mleEval_replicate_zero]
      ring
    have hblockshift : ∀ x : Nat,
        mleEval (s :: qs) ((List.range (2 ^ (s :: qs).length)).map fun y =>
          if 2 ^ ps.length + x = y then (1 : F) else 0) =
        s * mleEval qs ((List.range (2 ^ ps.length)).map fun y =>
          if x = y then (1 : F) else 0) := by
      intro x
      rw [hconslen2, mleEval]
      have helen : ((List.range (2 ^ (ps.length + 1))).map fun y =>
          if 2 ^ ps.length + x = y then (1 : F) else 0).length = 2 ^ (ps.length + 1) := by
        rw [List.length_map, List.length_range]
      rw [helen, hWhalf, indicator_take_zero, indicator_drop_shift,
        mleEval_replicate_zero]
      ring
    have htake_eq : (((List.range (2 ^ (r :: ps).length)).map fun x =>
        mleEval (s :: qs) ((List.range (2 ^ (s :: qs).length)).map fun y =>
          if x = y then (1 : F) else 0)).take (2 ^ ps.length)) =
        ((List.range (2 ^ ps.length)).map fun x =>
          mleEval qs ((List.range (2 ^ ps.length)).map fun y =>
            if x = y then (1 : F) else 0)).map fun z => (1 - s) * z := by
      rw [hconslen, range_pow_succ_split, List.map_append,
        List.take_left' (by rw [List.length_map, List.length_range]), List.map_map]
      refine List.map_congr_left fun x hx => ?_
      rw [List.mem_range] at hx
      simp only [Function.comp_apply]
      exact hblock x hx
    have hdrop_eq : (((List.range (2 ^ (r :: ps).length)).map fun x =>
        mleEval (s :: qs) ((List.range (2 ^ (s :: qs).length)).map fun y =>
          if x = y then (1 : F) else 0)).drop (2 ^ ps.length)) =
        ((List.range (2 ^ ps.length)).map fun x =>
          mleEval qs ((List.range (2 ^ ps.length)).map fun y =>
            if x = y then (1 : F) else 0)).map fun z => s * z := by
      rw [hconslen, range_pow_succ_split, List.map_append,
        List.drop_left' (by rw [List.length_map, List.length_range]), List.map_map,
        List.map_map]
      refine List.map_congr_left fun x _ => ?_
      simp only [Function.comp_apply]
      exact hblockshift x
    rw [htake_eq, hdrop_eq, mleEval_map_smul, mleEval_map_smul]
    have ihP := ih qs hn
    rw [← hn] at ihP
    rw [ihP]
    rw [hconslen, List.range_succ_eq_map, List.map_cons, List.prod_cons, List.map_map]
    have htail : ((List.range ps.length).map
        ((fun i => (r :: ps).getD i 0 * (s :: qs).getD i 0 +
          (1 - (r :: ps).getD i 0) * (1 - (s :: qs).getD i 0)) ∘ Nat.succ)) =
        (List.range ps.length).map fun i =>
          ps.getD i 0 * qs.getD i 0 + (1 - ps.getD i 0) * (1 - qs.getD i 0) := by
      refine List.map_congr_left fun i _ => ?_
      simp only [Function.comp_apply, List.getD_cons_succ]
    rw [htail]
    simp only [List.getD_cons_zero]
    ring

theorem eqEvaluateMle_prod (px py : List F) (hlen : px.length = py.length) :
    eqEvaluateMle (px ++ py) =
      ((List.range px.length).map fun i =>
        px.getD i 0 * py.getD i 0 + (1 - px.getD i 0) * (1 - py.getD i 0)).prod := by
  simp only [eqEvaluateMle]
  have hb : (px ++ py).length / 2 = px.length := by
    rw [List.length_append, hlen]; omega
  rw [hb, List.take_left, List.drop_left, foldl_mul_eq_prod, one_mul]

/-- The EQ subtable's `evaluate_mle` agrees with the MLE of its
materialization on all of `F^(2b)`. -/
theorem eq_subtable_consistent (b : Nat) (p : List F) (hp : p.length = 2 * b) :
    eqEvaluateMle p = mleEval p (eqMaterialize F (2 ^ (2 * b))) := by
  have hpx : (p.take b).length = b := by rw [List.length_take]; omega
  have hpy : (p.drop b).length = b := by rw [List.length_drop]; omega
  have hsplit : p.take b ++ p.drop b = p := List.take_append_drop b p
  rw [← hsplit, eqEvaluateMle_prod (p.take b) (p.drop b) (hpx.trans hpy.symm)]
  have hMlen : (eqMaterialize F (2 ^ (2 * b))).length =
      2 ^ ((p.take b).length + (p.drop b).length) := by
    simp only [eqMaterialize, List.length_map, List.length_range]
    congr 1
    omega
  rw [mleEval_append (p.take b) (p.drop b) _ hMlen]
  have hblocks : ((List.range (2 ^ (p.take b).length)).map fun x =>
      mleEval (p.drop b) (((eqMaterialize F (2 ^ (2 * b))).drop
        (x * 2 ^ (p.drop b).length)).take (2 ^ (p.drop b).length))) =
      (List.range (2 ^ (p.take b).length)).map fun x =>
        mleEval (p.drop b) ((List.range (2 ^ (p.drop b).length)).map fun y =>
          if x = y then (1 : F) else 0) := by
    refine List.map_congr_left fun x hx => ?_
    rw [List.mem_range, hpx] at hx
    congr 1
    rw [hpy]
    exact eqMaterialize_block b x hx
  rw [hblocks, eq_inner (p.take b) (p.drop b) (hpx.trans hpy.symm)]

theorem mleEval_map_add (c : F) : ∀ (p : List F) (w : List F),
    w.length = 2 ^ p.length →
    mleEval p (w.map fun z => c + z) = c + mleEval p w := by
  intro p
  induction p with
  | nil =>
    intro w hw
    obtain ⟨z, hz⟩ := List.length_eq_one.mp (by simpa using hw)
    subst hz
    simp [mleEval]
  | cons r ps ih =>
    intro w hw
    have hhalf : w.length / 2 = 2 ^ ps.length := by
      rw [hw, List.length_cons, pow_succ]; omega
    have htakelen : (w.take (w.length / 2)).length = 2 ^ ps.length := by
      rw [List.length_take, hhalf, hw, List.length_cons]
      have : (2 : Nat) ^ ps.length ≤ 2 ^ (ps.length + 1) :=
        Nat.pow_le_pow_right (by norm_num) (by omega)
      omega
    have hdroplen : (w.drop (w.length / 2)).length = 2 ^ ps.length := by
      rw [List.length_drop, hhalf, hw, List.length_cons, pow_succ]; omega
    rw [mleEval, mleEval, List.length_map, ← List.map_take, ← List.map_drop,
      ih _ htakelen, ih _ hdroplen]
    ring

/-- The Zero-LSB subtable's `evaluate_mle` agrees with the MLE of its
materialization on all of `F^n`. -/
theorem zero_lsb_subtable_consistent : ∀ (p : List F),
    zeroLsbEvaluateMle p = mleEval p (zeroLsbMaterialize F (2 ^ p.length)) := by
  intro p
  induction p with
  | nil =>
    simp [zeroLsbEvaluateMle, zeroLsbMaterialize, mleEval]
  | cons q ps ih =>
    rcases Nat.eq_zero_or_pos ps.length with hn | hn
    · have hps : ps = [] := List.length_eq_zero.mp hn
      subst hps
      have hmat : zeroLsbMaterialize F (2 ^ ([q] : List F).length) = [0, 0] := by
        have h2 : (2 : Nat) ^ ([q] : List F).length = 2 := by norm_num
        rw [h2]
        simp only [zeroLsbMaterialize]
        norm_num [List.range_succ]
      rw [hmat]
      have hml : mleEval [q] ([0, 0] : List F) = 0 := by
        simp [mleEval]
      rw [hml]
      simp [zeroLsbEvaluateMle]
    · -- ps.length ≥ 1
      set n := ps.length with hndef
      have hvlen : (zeroLsbMaterialize F (2 ^ (q :: ps).length)).length = 2 ^ (n + 1) := by
        simp only [zeroLsbMaterialize, List.length_map, List.length_range,
          List.length_cons]
      rw [mleEval, hvlen]
      have hhalf : (2 : Nat) ^ (n + 1) / 2 = 2 ^ n := by rw [pow_succ]; omega
      rw [hhalf]
      have hconslen : ((q :: ps) : List F).length = n + 1 := rfl
      have htake_eq : (zeroLsbMaterialize F (2 ^ (q :: ps).length)).take (2 ^ n) =
          zeroLsbMaterialize F (2 ^ n) := by
        simp only [zeroLsbMaterialize, hconslen]
        rw [← List.map_take, List.take_range]
        have hmin : (2 : Nat) ^ n ⊓ 2 ^ (n + 1) = 2 ^ n := by
          have h := Nat.pow_le_pow_right (show 1 ≤ 2 by norm_num)
            (show n ≤ n + 1 by omega)
          omega
        rw [hmin]
      have hdrop_eq : (zeroLsbMaterialize F (2 ^ (q :: ps).length)).drop (2 ^ n) =
          (zeroLsbMaterialize F (2 ^ n)).map fun z => ((2 ^ n : Nat) : F) + z := by
        simp only [zeroLsbMaterialize, hconslen]
        rw [range_pow_succ_split,
          List.map_append,
          List.drop_left' (by rw [List.length_map, List.length_range]),
          List.map_map, List.map_map]
        refine List.map_congr_left fun x _ => ?_
        simp only [Function.comp_apply]
        have hmod : (2 ^ n + x) % 2 = x % 2 := by
          have h2 : (2 : Nat) ^ n = 2 * 2 ^ (n - 1) := by
            rw [← pow_succ']
            congr 1
            omega
          rw [h2, Nat.mul_add_mod]
        have hsub : 2 ^ n + x - (2 ^ n + x) % 2 = 2 ^ n + (x - x % 2) := by
          rw [hmod]
          have := Nat.mod_le x 2
          omega
        rw [hsub, Nat.cast_add]
      rw [htake_eq, hdrop_eq, mleEval_map_add _ _ _ (by
        simp only [zeroLsbMaterialize, List.length_map, List.length_range]), ← ih]
      -- now compute the evaluate_mle side
      have hlhs : zeroLsbEvaluateMle (q :: ps) =
          ((List.range' 1 n).map fun i =>
            (2 : F) ^ i * (q :: ps).getD (n - i) 0).sum := by
        simp only [zeroLsbEvaluateMle, hconslen]
        rw [foldl_add_eq_sum, zero_add]
        refine congrArg List.sum (List.map_congr_left fun i _ => ?_)
        congr 2
      have hrhs : zeroLsbEvaluateMle ps =
          ((List.range' 1 (n - 1)).map fun i =>
            (2 : F) ^ i * ps.getD (n - 1 - i) 0).sum := by
        simp only [zeroLsbEvaluateMle, ← hndef]
        rw [foldl_add_eq_sum, zero_add]
      rw [hlhs, hrhs]
      have hrange : List.range' 1 n = List.range' 1 (n - 1) ++ [n] := by
        have hc : List.range' 1 (n - 1 + 1) 1 =
            List.range' 1 (n - 1) 1 ++ [1 + 1 * (n - 1)] := List.range'_concat 1 (n - 1)
        have harith : n - 1 + 1 = n := by omega
        rw [harith] at hc
        rw [hc]
        congr 2
        omega
      rw [hrange, List.map_append, List.sum_append]
      have hsingle : (([n] : List Nat).map fun i =>
          (2 : F) ^ i * (q :: ps).getD (n - i) 0).sum = (2 : F) ^ n * q := by
        simp
      rw [hsingle]
      have hcongr : ((List.range' 1 (n - 1)).map fun i =>
          (2 : F) ^ i * (q :: ps).getD (n - i) 0) =
          (List.range' 1 (n - 1)).map fun i =>
            (2 : F) ^ i * ps.getD (n - 1 - i) 0 := by
        refine List.map_congr_left fun i hi => ?_
        rw [List.mem_range'_1] at hi
        congr 1
        have harith : n - i = (n - 1 - i) + 1 := by omega
        rw [harith, List.getD_cons_succ]
      rw [hcongr]
      push_cast
      ring

end Subtable

/-- C7: for the EQ subtable (even `log M = 2b`) and the Zero-LSB subtable,
for every power-of-two table size and every point of `log M` field
coordinates, `evaluate_mle(p)` equals the multilinear extension of
`materialize(M)` evaluated at `p`; on boolean points the two agree with the
materialized table index by index. -/
theorem C7_subtable_mle_consistency {F : Type} [CommRing F] :
    (∀ (b : Nat) (p : List F), p.length = 2 * b →
      Subtable.eqEvaluateMle p = Subtable.mleEval p (Subtable.eqMaterialize F (2 ^ (2 * b)))) ∧
    (∀ (b : Nat) (bits : List Bool), bits.length = 2 * b →
      Subtable.eqEvaluateMle (bits.map Subtable.boolToField) =
        (Subtable.eqMaterialize F (2 ^ (2 * b))).getD (Subtable.bitsToNat bits) 0) ∧
    (∀ (p : List F),
      Subtable.zeroLsbEvaluateMle p =
        Subtable.mleEval p (Subtable.zeroLsbMaterialize F (2 ^ p.length))) ∧
    (∀ (bits : List Bool),
      Subtable.zeroLsbEvaluateMle (bits.map Subtable.boolToField) =
        (Subtable.zeroLsbMaterialize F (2 ^ bits.length)).getD
          (Subtable.bitsToNat bits) 0) := by
  refine ⟨fun b p hp => Subtable.eq_subtable_consistent b p hp, ?_,
    fun p => Subtable.zero_lsb_subtable_consistent p, ?_⟩
  · intro b bits hbits
    have hmap : (bits.map (Subtable.boolToField (F := F))).length = 2 * b := by
      rw [List.length_map, hbits]
    rw [Subtable.eq_subtable_consistent b _ hmap]
    rw [Subtable.mleEval_boolean bits _ (by
      simp only [Subtable.eqMaterialize, List.length_map, List.length_range]
      rw [hbits])]
  · intro bits
    rw [Subtable.zero_lsb_subtable_consistent]
    rw [List.length_map]
    rw [Subtable.mleEval_boolean bits _ (by
      simp only [Subtable.zeroLsbMaterialize, List.length_map, List.length_range])]

/-- Witness for C7: `b = 1` (EQ over a 4-entry table) at the point `[2, 3]`
and Zero-LSB at `[5, 7]`, over `ℤ`, plus the boolean agreement at the index
bits `[true, false]`. -/
theorem C7_witness :
    (([2, 3] : List ℤ).length = 2 * 1 ∧
      Subtable.eqEvaluateMle ([2, 3] : List ℤ) =
        Subtable.mleEval ([2, 3] : List ℤ) (Subtable.eqMaterialize ℤ (2 ^ (2 * 1)))) ∧
    Subtable.zeroLsbEvaluateMle ([5, 7] : List ℤ) =
      Subtable.mleEval ([5, 7] : List ℤ)
        (Subtable.zeroLsbMaterialize ℤ (2 ^ ([5, 7] : List ℤ).length)) ∧
    Subtable.zeroLsbEvaluateMle ([true, false].map Subtable.boolToField) =
      (Subtable.zeroLsbMaterialize ℤ (2 ^ ([true, false] : List Bool).length)).getD
        (Subtable.bitsToNat [true, false]) 0 := by
  refine ⟨⟨by decide, ?_⟩, ?_, ?_⟩
  · exact (C7_subtable_mle_consistency (F := ℤ)).1 1 [2, 3] (by decide)
  · exact (C7_subtable_mle_consistency (F := ℤ)).2.2.1 [5, 7]
  · exact (C7_subtable_mle_consistency (F := ℤ)).2.2.2 [true, false]


/-! ### Bytecode memory checking: claim C1 -/

/-! ### List access helpers for the bytecode argument -/

theorem getD_map_in {α β : Type} (l : List α) (f : α → β) (d1 : α) (d2 : β)
    (j : Nat) (h : j < l.length) :
    (l.map f).getD j d2 = f (l.getD j d1) := by
  rw [List.getD_eq_getElem _ _ (by simpa using h), List.getElem_map,
    List.getD_eq_getElem _ _ h]

theorem getD_map_append {α β : Type} (l : List α) (pad : List β) (f : α → β)
    (d1 : α) (d2 : β) (j : Nat) (h : j < l.length) :
    ((l.map f) ++ pad).getD j d2 = f (l.getD j d1) := by
  rw [List.getD_append _ _ _ _ (by simpa using h), getD_map_in l f d1 d2 j h]

theorem getD_append_left {α : Type} (l l' : List α) (d : α) (j : Nat)
    (h : j < l.length) : (l ++ l').getD j d = l.getD j d :=
  List.getD_append _ _ _ _ h

theorem getD_append_right' {α : Type} (l l' : List α) (d : α) (j : Nat)
    (h : l.length ≤ j) : (l ++ l').getD j d = l'.getD (j - l.length) d := by
  rcases Nat.lt_or_ge j (l ++ l').length with hj | hj
  · rw [List.getD_eq_getElem _ _ hj]
    rw [List.getElem_append_right (by omega)]
    rw [List.getD_eq_getElem _ _ (by rw [List.length_append] at hj; omega)]
  · rw [List.getD_eq_default _ _ hj, List.getD_eq_default]
    rw [List.length_append] at hj
    omega

/-! ### foldl max -/

theorem foldl_max_le : ∀ (l : List Nat) (a m : Nat), a ≤ m → (∀ x ∈ l, x ≤ m) →
    l.foldl max a ≤ m := by
  intro l
  induction l with
  | nil => intro a m ha _; simpa using ha
  | cons x xs ih =>
    intro a m ha hall
    rw [List.foldl_cons]
    exact ih (max a x) m (max_le ha (hall x (List.mem_cons_self x xs))) fun y hy =>
      hall y (List.mem_cons_of_mem x hy)

theorem le_foldl_max_init : ∀ (l : List Nat) (a : Nat), a ≤ l.foldl max a := by
  intro l
  induction l with
  | nil => intro a; simp
  | cons x xs ih =>
    intro a
    rw [List.foldl_cons]
    exact le_trans (le_max_left a x) (ih (max a x))

theorem le_foldl_max_of_mem : ∀ (l : List Nat) (a x : Nat), x ∈ l →
    x ≤ l.foldl max a := by
  intro l
  induction l with
  | nil => intro a x hx; simp at hx
  | cons y ys ih =>
    intro a x hx
    rw [List.foldl_cons]
    rcases List.mem_cons.mp hx with hxy | hxm
    · exact hxy ▸ le_trans (le_max_right a x) (le_foldl_max_init ys (max a x))
    · exact ih (max a y) x hxm

/-! ### One-point multiset swap -/

theorem range_map_split {F : Type} (f : Nat → F) (N a : Nat) (ha : a < N) :
    (List.range N).map f =
      ((List.range a).map f) ++ f a :: ((List.range' (a + 1) (N - (a + 1))).map f) := by
  have hsplit : List.range' 0 a ++ List.range' a (N - a) = List.range' 0 N := by
    have h := List.range'_append 0 a (N - a) 1
    simpa [Nat.add_comm, Nat.sub_add_cancel ha.le] using h
  have hcons : List.range' a (N - a) = a :: List.range' (a + 1) (N - (a + 1)) := by
    have harith : N - a = (N - (a + 1)) + 1 := by omega
    rw [harith, List.range'_succ]
  rw [List.range_eq_range', ← hsplit, hcons, List.map_append, List.map_cons,
    ← List.range_eq_range']

theorem multiset_swap_at {F : Type} (f f' : Nat → F) (N a : Nat) (ha : a < N)
    (hagree : ∀ i, i ≠ a → f i = f' i) :
    f a ::ₘ (((List.range N).map f' : List F) : Multiset F) =
      f' a ::ₘ ↑((List.range N).map f) := by
  rw [range_map_split f N a ha, range_map_split f' N a ha]
  have hL : (List.range a).map f' = (List.range a).map f :=
    List.map_congr_left fun i hi =>
      (hagree i (by rw [List.mem_range] at hi; omega)).symm
  have hR : (List.range' (a + 1) (N - (a + 1))).map f' =
      (List.range' (a + 1) (N - (a + 1))).map f :=
    List.map_congr_left fun i hi => by
      rw [List.mem_range'_1] at hi
      exact (hagree i (by omega)).symm
  rw [hL, hR, Multiset.cons_coe, Multiset.cons_coe, Multiset.coe_eq_coe]
  refine List.Perm.trans (List.Perm.cons _ List.perm_middle) ?_
  refine List.Perm.trans (List.Perm.swap _ _ _) ?_
  exact List.Perm.cons _ List.perm_middle.symm

/-! ### The counter loop of BytecodePolynomials::new -/

theorem bytecodeCounts_fst_length : ∀ (as cts : List Nat),
    (Bytecode.bytecodeCounts as cts).1.length = as.length := by
  intro as
  induction as with
  | nil => intro cts; simp [Bytecode.bytecodeCounts]
  | cons a rest ih =>
    intro cts
    simp only [Bytecode.bytecodeCounts, List.length_cons]
    rw [ih]

theorem bytecodeCounts_snd_length : ∀ (as cts : List Nat),
    (Bytecode.bytecodeCounts as cts).2.length = cts.length := by
  intro as
  induction as with
  | nil => intro cts; simp [Bytecode.bytecodeCounts]
  | cons a rest ih =>
    intro cts
    simp only [Bytecode.bytecodeCounts]
    rw [ih, List.length_set]

theorem bytecodeCounts_multiset {F : Type} (g : Nat → Nat → F) :
    ∀ (as cts : List Nat), (∀ x ∈ as, x < cts.length) →
      (((List.range cts.length).map fun i => g i (cts.getD i 0) : List F) : Multiset F) +
        ↑(List.zipWith (fun a c => g a (c + 1)) as (Bytecode.bytecodeCounts as cts).1) =
      ↑((List.range cts.length).map fun i =>
          g i ((Bytecode.bytecodeCounts as cts).2.getD i 0)) +
        ↑(List.zipWith (fun a c => g a c) as (Bytecode.bytecodeCounts as cts).1) := by
  intro as
  induction as with
  | nil => intro cts _; simp [Bytecode.bytecodeCounts]
  | cons a rest ih =>
    intro cts hbound
    have haN : a < cts.length := hbound a (List.mem_cons_self a rest)
    simp only [Bytecode.bytecodeCounts, List.zipWith_cons_cons]
    rw [← Multiset.cons_coe, ← Multiset.cons_coe, Multiset.add_cons, Multiset.add_cons]
    have hswap := multiset_swap_at
      (fun i => g i ((cts.set a (cts.getD a 0 + 1)).getD i 0))
      (fun i => g i (cts.getD i 0)) cts.length a haN
      (fun i hi => congrArg (g i)
        (getD_set_ne cts (cts.getD a 0 + 1) 0 fun h => hi h.symm))
    beta_reduce at hswap
    rw [getD_set_self _ _ _ _ haN] at hswap
    have hih := ih (cts.set a (cts.getD a 0 + 1)) (fun x hx => by
      rw [List.length_set]
      exact hbound x (List.mem_cons_of_mem a hx))
    rw [List.length_set] at hih
    rw [← Multiset.cons_add, hswap, Multiset.cons_add, hih]

/-! ### Range-map to zipWith -/

theorem range_map_eq_zipWith {α β γ : Type} (h : α → β → γ) (d1 : α) (d2 : β) :
    ∀ (as : List α) (cs : List β), as.length = cs.length →
      (List.range as.length).map (fun j => h (as.getD j d1) (cs.getD j d2)) =
        List.zipWith h as cs := by
  intro as
  induction as with
  | nil => intro cs _; simp
  | cons a as ih =>
    intro cs hlen
    rcases cs with _ | ⟨c, cs⟩
    · simp at hlen
    · have hlen' : as.length = cs.length := by simpa using hlen
      rw [List.length_cons, List.range_succ_eq_map, List.map_cons, List.map_map,
        List.zipWith_cons_cons]
      simp only [List.getD_cons_zero]
      congr 1
      rw [← ih cs hlen']
      refine List.map_congr_left fun j _ => ?_
      simp [Function.comp]

/-! ### preprocess structure under contiguous bytecode addresses -/

namespace Bytecode

theorem preprocess_fst_length (bytecode trace : List ELFRow) :
    (preprocess bytecode trace).1.length = nextPow2 (bytecode.length + 1) := by
  simp only [preprocess, List.length_append, List.length_map, List.length_replicate,
    List.length_cons, List.length_nil, Nat.zero_add]
  have h := le_nextPow2 (bytecode.length + 1)
  omega

theorem preprocess_snd_length (bytecode trace : List ELFRow) :
    (preprocess bytecode trace).2.length = nextPow2 trace.length := by
  simp only [preprocess, List.length_append, List.length_map, List.length_replicate]
  have h := le_nextPow2 trace.length
  omega

theorem preprocessRow_address (row : ELFRow) (i : Nat)
    (h : row.address = ramStartAddress + bytesPerInstruction * i) :
    (preprocessRow row).address = i := by
  simp only [preprocessRow, h, ramStartAddress, bytesPerInstruction]
  omega

end Bytecode

theorem getD_replicate_lt {α : Type} (m k : Nat) (x d : α) (h : k < m) :
    (List.replicate m x).getD k d = x := by
  rw [List.getD_eq_getElem _ _ (by simpa using h)]
  exact List.getElem_replicate _ _

theorem getD_mem {α : Type} (l : List α) (j : Nat) (d : α) (h : j < l.length) :
    l.getD j d ∈ l := by
  rw [List.getD_eq_getElem _ _ h]
  exact List.getElem_mem h

theorem mem_getD {α : Type} (l : List α) (r d : α) (h : r ∈ l) :
    ∃ k, k < l.length ∧ l.getD k d = r := by
  obtain ⟨k, hk, hr⟩ := List.mem_iff_getElem.mp h
  exact ⟨k, hk, by rw [List.getD_eq_getElem _ _ hk]; exact hr⟩

namespace Bytecode

theorem preprocess_fst_getD_lt (bytecode trace : List ELFRow) (i : Nat)
    (hi : i < bytecode.length) :
    (preprocess bytecode trace).1.getD i (noOp 0) =
      preprocessRow (bytecode.getD i (noOp 0)) := by
  simp only [preprocess]
  rw [getD_append_left _ _ _ _ (by
    simp only [List.length_append, List.length_map, List.length_cons, List.length_nil]
    omega)]
  rw [getD_append_left _ _ _ _ (by simpa using hi)]
  exact getD_map_in bytecode preprocessRow (noOp 0) (noOp 0) i hi

theorem preprocess_noOpAddr (bytecode : List ELFRow)
    (hcontig : ∀ i, i < bytecode.length →
      (bytecode.getD i (noOp 0)).address =
        ramStartAddress + bytesPerInstruction * i)
    (hne : bytecode ≠ []) :
    ((bytecode.map preprocessRow).getLast?.getD (noOp 0)).address + 1 =
      bytecode.length := by
  have hlen : 0 < bytecode.length := List.length_pos.mpr hne
  have hmaplen : 0 < (bytecode.map preprocessRow).length := by simpa using hlen
  rw [List.getLast?_eq_getElem?]
  rw [List.getElem?_eq_getElem (by omega)]
  simp only [Option.getD_some]
  rw [List.getElem_map]
  have hidx : (bytecode.map preprocessRow).length - 1 < bytecode.length := by
    simp only [List.length_map]
    omega
  rw [← List.getD_eq_getElem bytecode (noOp 0) hidx]
  simp only [List.length_map]
  rw [preprocessRow_address _ (bytecode.length - 1)
    (hcontig (bytecode.length - 1) (by omega))]
  omega

theorem preprocess_fst_getD_eq (bytecode trace : List ELFRow)
    (hcontig : ∀ i, i < bytecode.length →
      (bytecode.getD i (noOp 0)).address =
        ramStartAddress + bytesPerInstruction * i)
    (hne : bytecode ≠ []) :
    (preprocess bytecode trace).1.getD bytecode.length (noOp 0) =
      noOp bytecode.length := by
  simp only [preprocess]
  rw [getD_append_left _ _ _ _ (by
    simp only [List.length_append, List.length_map, List.length_cons, List.length_nil]
    omega)]
  rw [getD_append_right' _ _ _ _ (by simp)]
  simp only [List.length_map, Nat.sub_self, List.getD_cons_zero]
  rw [preprocess_noOpAddr bytecode hcontig hne]

theorem preprocess_fst_getD_gt (bytecode trace : List ELFRow) (i : Nat)
    (hi : bytecode.length < i) :
    (preprocess bytecode trace).1.getD i (noOp 0) = noOp 0 := by
  simp only [preprocess]
  rcases Nat.lt_or_ge i (nextPow2 (bytecode.length + 1)) with hlt | hge
  · rw [getD_append_right' _ _ _ _ (by
      simp only [List.length_append, List.length_map, List.length_cons, List.length_nil]
      omega)]
    rw [getD_replicate_lt _ _ _ _ (by
      simp only [List.length_append, List.length_map, List.length_cons, List.length_nil,
        Nat.zero_add]
      omega)]
  · rw [List.getD_eq_default]
    have h := preprocess_fst_length bytecode trace
    simp only [preprocess] at h
    omega

theorem validate_mem (bytecode trace : List ELFRow)
    (hval : validateBytecode bytecode trace = true) :
    ∀ r ∈ trace, r ∈ bytecode := by
  intro r hr
  rw [validateBytecode, List.all_eq_true] at hval
  have h := hval r hr
  rw [decide_eq_true_eq] at h
  exact List.mem_reverse.mp (List.mem_of_find?_eq_some h)

theorem preprocess_max_address (bytecode trace : List ELFRow)
    (hcontig : ∀ i, i < bytecode.length →
      (bytecode.getD i (noOp 0)).address =
        ramStartAddress + bytesPerInstruction * i)
    (hne : bytecode ≠ []) :
    ((preprocess bytecode trace).1.map ELFRow.address).foldl max 0 =
      bytecode.length := by
  refine le_antisymm ?_ ?_
  · refine foldl_max_le _ 0 bytecode.length (Nat.zero_le _) ?_
    intro x hx
    obtain ⟨row, hrow, hxr⟩ := List.mem_map.mp hx
    obtain ⟨k, hk, hkr⟩ := mem_getD _ row (noOp 0) hrow
    rw [preprocess_fst_length] at hk
    subst hxr
    rcases Nat.lt_trichotomy k bytecode.length with hlt | heq | hgt
    · rw [← hkr, preprocess_fst_getD_lt bytecode trace k hlt,
        preprocessRow_address _ k (hcontig k hlt)]
      omega
    · rw [← hkr, heq, preprocess_fst_getD_eq bytecode trace hcontig hne]
      simp [noOp]
    · rw [← hkr, preprocess_fst_getD_gt bytecode trace k hgt]
      simp [noOp]
  · refine le_foldl_max_of_mem _ 0 bytecode.length ?_
    refine List.mem_map.mpr ⟨noOp bytecode.length, ?_, rfl⟩
    have hlen : bytecode.length < (preprocess bytecode trace).1.length := by
      rw [preprocess_fst_length]
      have := le_nextPow2 (bytecode.length + 1)
      omega
    rw [← preprocess_fst_getD_eq bytecode trace hcontig hne]
    exact getD_mem _ _ _ hlen

theorem preprocess_snd_rows (bytecode trace : List ELFRow)
    (hcontig : ∀ i, i < bytecode.length →
      (bytecode.getD i (noOp 0)).address =
        ramStartAddress + bytesPerInstruction * i)
    (hne : bytecode ≠ [])
    (hval : validateBytecode bytecode trace = true) :
    ∀ j, j < (preprocess bytecode trace).2.length →
      ((preprocess bytecode trace).2.getD j (noOp 0)).address ≤ bytecode.length ∧
      (preprocess bytecode trace).2.getD j (noOp 0) =
        (preprocess bytecode trace).1.getD
          (((preprocess bytecode trace).2.getD j (noOp 0)).address) (noOp 0) := by
  intro j hj
  rw [preprocess_snd_length] at hj
  rcases Nat.lt_or_ge j trace.length with hlt | hge
  · have hrow : (preprocess bytecode trace).2.getD j (noOp 0) =
        preprocessRow (trace.getD j (noOp 0)) := by
      simp only [preprocess]
      rw [getD_append_left _ _ _ _ (by simpa using hlt)]
      exact getD_map_in trace preprocessRow (noOp 0) (noOp 0) j hlt
    have hmem : trace.getD j (noOp 0) ∈ bytecode :=
      validate_mem bytecode trace hval _ (getD_mem trace j (noOp 0) hlt)
    obtain ⟨k, hk, hkr⟩ := mem_getD bytecode (trace.getD j (noOp 0)) (noOp 0) hmem
    have haddr : (preprocessRow (trace.getD j (noOp 0))).address = k := by
      rw [← hkr]
      exact preprocessRow_address _ k (hcontig k hk)
    refine ⟨by rw [hrow, haddr]; omega, ?_⟩
    rw [hrow, haddr, preprocess_fst_getD_lt bytecode trace k hk, hkr]
  · have hrow : (preprocess bytecode trace).2.getD j (noOp 0) =
        noOp (((bytecode.map preprocessRow).getLast?.getD (noOp 0)).address + 1) := by
      simp only [preprocess]
      rw [getD_append_right' _ _ _ _ (by simpa using hge)]
      rw [getD_replicate_lt _ _ _ _ (by
        simp only [List.length_map]
        omega)]
    rw [hrow, preprocess_noOpAddr bytecode hcontig hne]
    refine ⟨le_refl _, ?_⟩
    have haddr : (noOp bytecode.length).address = bytecode.length := rfl
    rw [haddr, preprocess_fst_getD_eq bytecode trace hcontig hne]

theorem fromElf_opcode_length (F : Type) [CommRing F] (elf : List ELFRow) :
    (fromElf F elf).opcode.length = nextPow2 elf.length := by
  simp only [fromElf]
  rw [List.length_append, List.length_map, List.length_replicate]
  have := le_nextPow2 elf.length
  omega

theorem fromElf_getD (F : Type) [CommRing F] (elf : List ELFRow) (i : Nat)
    (h : i < elf.length) :
    (fromElf F elf).opcode.getD i 0 = ((elf.getD i (noOp 0)).opcode : F) ∧
    (fromElf F elf).rd.getD i 0 = ((elf.getD i (noOp 0)).rd : F) ∧
    (fromElf F elf).rs1.getD i 0 = ((elf.getD i (noOp 0)).rs1 : F) ∧
    (fromElf F elf).rs2.getD i 0 = ((elf.getD i (noOp 0)).rs2 : F) ∧
    (fromElf F elf).imm.getD i 0 = ((elf.getD i (noOp 0)).imm : F) := by
  refine ⟨?_, ?_, ?_, ?_, ?_⟩
  · simp only [fromElf]
    exact getD_map_append elf _ _ (noOp 0) 0 i h
  · simp only [fromElf]
    exact getD_map_append elf _ _ (noOp 0) 0 i h
  · simp only [fromElf]
    exact getD_map_append elf _ _ (noOp 0) 0 i h
  · simp only [fromElf]
    exact getD_map_append elf _ _ (noOp 0) 0 i h
  · simp only [fromElf]
    exact getD_map_append elf _ _ (noOp 0) 0 i h

/-- C1 (amended): for every bytecode whose row `i` sits at instruction
address `RAM_START_ADDRESS + BYTES_PER_INSTRUCTION * i` (consecutive
instructions, as an ELF text section produces) and whose trace rows all
appear, address and content identical, in the bytecode (so that
`BytecodePolynomials::new` succeeds), and every pair of challenges
`(γ, τ)`, the four leaf vectors of `BytecodeProof::compute_leaves` satisfy
multiset equality: read fingerprints + final fingerprints equal init
fingerprints + write fingerprints as multisets, and consequently
`prod(init) * prod(write) = prod(final) * prod(read)`. -/
theorem C1_bytecode_multiset_equality {F : Type} [CommRing F]
    (bytecode trace : List ELFRow) (polys : BytecodePolynomials F) (gamma tau : F)
    (hcontig : ∀ i, i < bytecode.length →
      (bytecode.getD i (noOp 0)).address =
        ramStartAddress + bytesPerInstruction * i)
    (hsome : newPolynomials F bytecode trace = some polys) :
    ((↑((computeLeaves polys gamma tau).1.getD 0 []) +
        ↑((computeLeaves polys gamma tau).2.getD 1 []) : Multiset F) =
      ↑((computeLeaves polys gamma tau).2.getD 0 []) +
        ↑((computeLeaves polys gamma tau).1.getD 1 [])) ∧
    ((computeLeaves polys gamma tau).2.getD 0 []).prod *
        ((computeLeaves polys gamma tau).1.getD 1 []).prod =
      ((computeLeaves polys gamma tau).2.getD 1 []).prod *
        ((computeLeaves polys gamma tau).1.getD 0 []).prod := by
  have hmain : (↑((computeLeaves polys gamma tau).1.getD 0 []) +
        ↑((computeLeaves polys gamma tau).2.getD 1 []) : Multiset F) =
      ↑((computeLeaves polys gamma tau).2.getD 0 []) +
        ↑((computeLeaves polys gamma tau).1.getD 1 []) := by
    simp only [newPolynomials] at hsome
    split at hsome
    case isFalse => exact Option.noConfusion hsome
    case isTrue hguard =>
    obtain rfl := Option.some.inj hsome
    obtain ⟨⟨⟨hval, hab⟩, hat⟩, hnemp⟩ := by
      simpa only [Bool.and_eq_true] using hguard
    have hne : bytecode ≠ [] := fun h => by subst h; simp at hnemp
    have hN : (fromElf F (preprocess bytecode trace).1).opcode.length =
        nextPow2 (bytecode.length + 1) := by
      rw [fromElf_opcode_length, preprocess_fst_length]
      obtain ⟨k, hk⟩ := nextPow2_isPow2 (bytecode.length + 1)
      exact nextPow2_eq_self hk
    simp only [computeLeaves, List.getD_cons_zero, List.getD_cons_succ]
    rw [preprocess_max_address bytecode trace hcontig hne]
    simp only [List.length_map]
    rw [hN]
    simp only [getD_map_zero]
    have hlenzip : (List.map ELFRow.address (preprocess bytecode trace).2).length =
        (bytecodeCounts (List.map ELFRow.address (preprocess bytecode trace).2)
          (List.replicate (nextPow2 (bytecode.length + 1)) 0)).1.length := by
      rw [bytecodeCounts_fst_length]
    have hread : List.map (fun i => fingerprint
        [(List.map (fun row => (row.address : F)) (preprocess bytecode trace).2).getD i 0,
         (fromElf F (preprocess bytecode trace).2).opcode.getD i 0,
         (fromElf F (preprocess bytecode trace).2).rd.getD i 0,
         (fromElf F (preprocess bytecode trace).2).rs1.getD i 0,
         (fromElf F (preprocess bytecode trace).2).rs2.getD i 0,
         (fromElf F (preprocess bytecode trace).2).imm.getD i 0,
         (((bytecodeCounts (List.map ELFRow.address (preprocess bytecode trace).2)
             (List.replicate (nextPow2 (bytecode.length + 1)) 0)).1.getD i 0 : Nat) : F)]
        gamma tau) (List.range (preprocess bytecode trace).2.length) =
      List.zipWith (fun a c => fingerprint
        [((a : Nat) : F),
         (fromElf F (preprocess bytecode trace).1).opcode.getD a 0,
         (fromElf F (preprocess bytecode trace).1).rd.getD a 0,
         (fromElf F (preprocess bytecode trace).1).rs1.getD a 0,
         (fromElf F (preprocess bytecode trace).1).rs2.getD a 0,
         (fromElf F (preprocess bytecode trace).1).imm.getD a 0,
         ((c : Nat) : F)] gamma tau)
        (List.map ELFRow.address (preprocess bytecode trace).2)
        (bytecodeCounts (List.map ELFRow.address (preprocess bytecode trace).2)
          (List.replicate (nextPow2 (bytecode.length + 1)) 0)).1 := by
      rw [← range_map_eq_zipWith _ 0 0 _ _ hlenzip, List.length_map]
      refine List.map_congr_left fun j hj => ?_
      rw [List.mem_range] at hj
      beta_reduce
      obtain ⟨haj, hrowj⟩ := preprocess_snd_rows bytecode trace hcontig hne hval j hj
      have haddrlt : ((preprocess bytecode trace).2.getD j (noOp 0)).address <
          (preprocess bytecode trace).1.length := by
        rw [preprocess_fst_length]
        have := le_nextPow2 (bytecode.length + 1)
        omega
      have haddr : (List.map ELFRow.address (preprocess bytecode trace).2).getD j 0 =
          ((preprocess bytecode trace).2.getD j (noOp 0)).address :=
        getD_map_in _ ELFRow.address (noOp 0) 0 j hj
      rw [haddr]
      have haddrF : (List.map (fun row => (row.address : F))
          (preprocess bytecode trace).2).getD j 0 =
          (((preprocess bytecode trace).2.getD j (noOp 0)).address : F) :=
        getD_map_in _ _ (noOp 0) 0 j hj
      rw [haddrF]
      obtain ⟨hop1, hrd1, hrs11, hrs21, himm1⟩ :=
        fromElf_getD F (preprocess bytecode trace).1 _ haddrlt
      obtain ⟨hop2, hrd2, hrs12, hrs22, himm2⟩ :=
        fromElf_getD F (preprocess bytecode trace).2 j hj
      rw [hop1, hrd1, hrs11, hrs21, himm1, hop2, hrd2, hrs12, hrs22, himm2]
      rw [congrArg ELFRow.opcode hrowj, congrArg ELFRow.rd hrowj,
        congrArg ELFRow.rs1 hrowj, congrArg ELFRow.rs2 hrowj, congrArg ELFRow.imm hrowj]
    have hwrite : List.map (fun i => fingerprint
        [(List.map (fun row => (row.address : F)) (preprocess bytecode trace).2).getD i 0,
         (fromElf F (preprocess bytecode trace).2).opcode.getD i 0,
         (fromElf F (preprocess bytecode trace).2).rd.getD i 0,
         (fromElf F (preprocess bytecode trace).2).rs1.getD i 0,
         (fromElf F (preprocess bytecode trace).2).rs2.getD i 0,
         (fromElf F (preprocess bytecode trace).2).imm.getD i 0,
         (((bytecodeCounts (List.map ELFRow.address (preprocess bytecode trace).2)
             (List.replicate (nextPow2 (bytecode.length + 1)) 0)).1.getD i 0 : Nat) : F) + 1]
        gamma tau) (List.range (preprocess bytecode trace).2.length) =
      List.zipWith (fun a c => fingerprint
        [((a : Nat) : F),
         (fromElf F (preprocess bytecode trace).1).opcode.getD a 0,
         (fromElf F (preprocess bytecode trace).1).rd.getD a 0,
         (fromElf F (preprocess bytecode trace).1).rs1.getD a 0,
         (fromElf F (preprocess bytecode trace).1).rs2.getD a 0,
         (fromElf F (preprocess bytecode trace).1).imm.getD a 0,
         ((c + 1 : Nat) : F)] gamma tau)
        (List.map ELFRow.address (preprocess bytecode trace).2)
        (bytecodeCounts (List.map ELFRow.address (preprocess bytecode trace).2)
          (List.replicate (nextPow2 (bytecode.length + 1)) 0)).1 := by
      rw [← range_map_eq_zipWith _ 0 0 _ _ hlenzip, List.length_map]
      refine List.map_congr_left fun j hj => ?_
      rw [List.mem_range] at hj
      beta_reduce
      obtain ⟨haj, hrowj⟩ := preprocess_snd_rows bytecode trace hcontig hne hval j hj
      have haddrlt : ((preprocess bytecode trace).2.getD j (noOp 0)).address <
          (preprocess bytecode trace).1.length := by
        rw [preprocess_fst_length]
        have := le_nextPow2 (bytecode.length + 1)
        omega
      have haddr : (List.map ELFRow.address (preprocess bytecode trace).2).getD j 0 =
          ((preprocess bytecode trace).2.getD j (noOp 0)).address :=
        getD_map_in _ ELFRow.address (noOp 0) 0 j hj
      rw [haddr]
      have haddrF : (List.map (fun row => (row.address : F))
          (preprocess bytecode trace).2).getD j 0 =
          (((preprocess bytecode trace).2.getD j (noOp 0)).address : F) :=
        getD_map_in _ _ (noOp 0) 0 j hj
      rw [haddrF]
      obtain ⟨hop1, hrd1, hrs11, hrs21, himm1⟩ :=
        fromElf_getD F (preprocess bytecode trace).1 _ haddrlt
      obtain ⟨hop2, hrd2, hrs12, hrs22, himm2⟩ :=
        fromElf_getD F (preprocess bytecode trace).2 j hj
      rw [hop1, hrd1, hrs11, hrs21, himm1, hop2, hrd2, hrs12, hrs22, himm2]
      rw [congrArg ELFRow.opcode hrowj, congrArg ELFRow.rd hrowj,
        congrArg ELFRow.rs1 hrowj, congrArg ELFRow.rs2 hrowj, congrArg ELFRow.imm hrowj]
      rw [Nat.cast_succ]
    have hbound : ∀ x ∈ List.map ELFRow.address (preprocess bytecode trace).2,
        x < (List.replicate (nextPow2 (bytecode.length + 1)) (0 : Nat)).length := by
      intro x hx
      rw [List.length_replicate]
      obtain ⟨row, hrow, rfl⟩ := List.mem_map.mp hx
      obtain ⟨j, hj, hjr⟩ := mem_getD (preprocess bytecode trace).2 row (noOp 0) hrow
      obtain ⟨haj, _⟩ := preprocess_snd_rows bytecode trace hcontig hne hval j hj
      rw [← hjr]
      have := le_nextPow2 (bytecode.length + 1)
      omega
    have hcore := bytecodeCounts_multiset (fun a t => fingerprint
        [((a : Nat) : F),
         (fromElf F (preprocess bytecode trace).1).opcode.getD a 0,
         (fromElf F (preprocess bytecode trace).1).rd.getD a 0,
         (fromElf F (preprocess bytecode trace).1).rs1.getD a 0,
         (fromElf F (preprocess bytecode trace).1).rs2.getD a 0,
         (fromElf F (preprocess bytecode trace).1).imm.getD a 0,
         ((t : Nat) : F)] gamma tau)
      (List.map ELFRow.address (preprocess bytecode trace).2)
      (List.replicate (nextPow2 (bytecode.length + 1)) 0) hbound
    beta_reduce at hcore
    simp only [List.length_replicate, getD_replicate_zero, Nat.cast_zero] at hcore
    rw [hread, hwrite, hcore]
    exact add_comm _ _
  refine ⟨hmain, ?_⟩
  have hp := congrArg Multiset.prod hmain
  simp only [Multiset.prod_add, Multiset.prod_coe] at hp
  exact hp.symm.trans (mul_comm _ _)

/-- Counterexample to C1 as stated: `gapBytecode` passes `validate_bytecode`
against `gapTrace` (the only trace row appears, address and content
identical, in the bytecode), `BytecodePolynomials::new` succeeds and yields
`gapPolys`, yet the leaves of `compute_leaves` violate the multiset equality
at `γ = 1`, `τ = 0` over `ℤ`: the bytecode rows skip an address, so the
position-indexed init/final tuples do not line up with the address-indexed
read/write tuples. -/
theorem C1_counterexample :
    validateBytecode gapBytecode gapTrace = true ∧
    newPolynomials ℤ gapBytecode gapTrace = some gapPolys ∧
    ¬ ((↑((computeLeaves gapPolys (1 : ℤ) 0).1.getD 0 []) +
        ↑((computeLeaves gapPolys (1 : ℤ) 0).2.getD 1 []) : Multiset ℤ) =
      ↑((computeLeaves gapPolys (1 : ℤ) 0).2.getD 0 []) +
        ↑((computeLeaves gapPolys (1 : ℤ) 0).1.getD 1 [])) :=
  ⟨rfl, rfl, by decide⟩

/-- Witness for C1: the contiguous two-row program `seqBytecode` with trace
`seqTrace` and challenges `γ = 2`, `τ = 1` over `ℤ`. -/
theorem C1_witness :
    (∀ i, i < seqBytecode.length →
      (seqBytecode.getD i (noOp 0)).address =
        ramStartAddress + bytesPerInstruction * i) ∧
    (((↑((computeLeaves seqPolys (2 : ℤ) 1).1.getD 0 []) +
        ↑((computeLeaves seqPolys (2 : ℤ) 1).2.getD 1 []) : Multiset ℤ) =
      ↑((computeLeaves seqPolys (2 : ℤ) 1).2.getD 0 []) +
        ↑((computeLeaves seqPolys (2 : ℤ) 1).1.getD 1 [])) ∧
    ((computeLeaves seqPolys (2 : ℤ) 1).2.getD 0 []).prod *
        ((computeLeaves seqPolys (2 : ℤ) 1).1.getD 1 []).prod =
      ((computeLeaves seqPolys (2 : ℤ) 1).2.getD 1 []).prod *
        ((computeLeaves seqPolys (2 : ℤ) 1).1.getD 0 []).prod) :=
  ⟨by decide,
    C1_bytecode_multiset_equality seqBytecode seqTrace seqPolys 2 1
      (by decide) (by rfl)⟩

end Bytecode


end Lasso
